import Mathlib

/-!
# Verification of the forceCalendar interface coordination layer

A shallow embedding, in Lean 4, of the reactive coordination layer of the
forceCalendar `interface` repository:

* the overlap layout engine (`BaseViewRenderer.computeOverlapLayout` in
  `src/renderers/BaseViewRenderer.js`),
* the event bus (`src/core/EventBus.js`),
* the state store (`src/core/StateManager.js`) together with a model of the
  external `@forcecalendar/core` engine (modelled from its capability
  contract, since the engine is an external dependency),
* the reconciliation behaviour of the main component
  (`src/components/ForceCalendar.js`).

Each definition is translated from the JavaScript source; comments point to
the source function being embedded.  JavaScript numbers appearing here are
all small non-negative integers (minutes of a day, counters), embedded as
`Nat`.
-/

namespace ForceCalendar

/-! ## Overlap layout engine

Embedding of `BaseViewRenderer.computeOverlapLayout` (BaseViewRenderer.js).
The JS function receives events carrying `start`/`end` `Date`s and first
converts them to minutes of the day via `getHours() * 60 + getMinutes()`;
we take the events with those two minute numbers already extracted.
JS `Map` objects keyed by `event.id` are embedded as association lists
whose `set` operation overwrites in place (keeping the key's position) or
appends a fresh key, exactly as `Map.set` does.
-/

/-- A timed event as consumed by `computeOverlapLayout`: its (opaque) id and
its start/end expressed as minute-of-day numbers, as computed by the JS
conversion `getHours() * 60 + getMinutes()` applied to `event.start` and
`event.end`. -/
structure TimedEvent where
  id : Nat
  startMin : Nat
  endMin : Nat
deriving DecidableEq, Repr

/-- The value stored in the layout map: the JS object with fields
`column` and `totalColumns`. -/
structure LayoutEntry where
  column : Nat
  totalColumns : Nat
deriving DecidableEq, Repr

/-- The internal sortable entry of `computeOverlapLayout`:
`{ id: evt.id, startMin, endMin }` where
`endMin = Math.max(startMin + 1, rawEnd)` widens degenerate intervals to at
least one minute. -/
structure Entry where
  id : Nat
  startMin : Nat
  endMin : Nat
deriving DecidableEq, Repr

/-- The conversion performed by the `events.map` at the top of
`computeOverlapLayout`. -/
def toEntry (e : TimedEvent) : Entry :=
  { id := e.id, startMin := e.startMin, endMin := max (e.startMin + 1) e.endMin }

/-- The sort comparator
`a.startMin - b.startMin || (b.endMin - b.startMin) - (a.endMin - a.startMin)`:
`entryLtB a b` is true exactly when the comparator is negative, i.e. when
`a` must be ordered strictly before `b` (earlier start, ties broken by
longer duration first). -/
def entryLtB (a b : Entry) : Bool :=
  decide (a.startMin < b.startMin) ||
    (decide (a.startMin = b.startMin) &&
      decide (b.endMin - b.startMin < a.endMin - a.startMin))

/-- Stable insertion with respect to a strictly-precedes test: walk past
every element `h` with `keep h s = true` (`h` must stay in front of `s`)
and insert before the first other one, so that elements the comparator
ties keep their original relative order. -/
def insBy {α : Type} (keep : α → α → Bool) (s : α) : List α → List α
  | [] => [s]
  | h :: t => if keep h s then h :: insBy keep s t else s :: h :: t

/-- Stable (insertion) sort with respect to a strictly-precedes test.
`Array.prototype.sort` is stable, so a JS sort call is embedded as this
function with `keep a b` true exactly when the comparator orders `a`
strictly before `b`. -/
def sortByKeep {α : Type} (keep : α → α → Bool) : List α → List α
  | [] => []
  | h :: t => insBy keep h (sortByKeep keep t)

/-- The `entries.sort(...)` call: a stable sort by the comparator
`entryLtB`. -/
def sortEntries : List Entry → List Entry :=
  sortByKeep entryLtB

/-- `Map.set` on an association list: overwrite the value at an existing
key in place, otherwise append the new key at the end (JS `Map` keeps the
original insertion position on overwrite). -/
def setAssoc {κ α : Type} [DecidableEq κ] (m : List (κ × α)) (k : κ) (v : α) :
    List (κ × α) :=
  match m with
  | [] => [(k, v)]
  | (k', v') :: t => if k' = k then (k, v) :: t else (k', v') :: setAssoc t k v

/-- `Map.get` on an association list. -/
def lookupAssoc {κ α : Type} [DecidableEq κ] (m : List (κ × α)) (k : κ) : Option α :=
  (m.find? (fun p => decide (p.1 = k))).map Prod.snd

/-- `Map.get` followed by reading the stored layout object; total with a
dummy default (the JS code only ever looks up keys it inserted). -/
def lookupEntry (ly : List (Nat × LayoutEntry)) (k : Nat) : LayoutEntry :=
  (lookupAssoc ly k).getD ⟨0, 0⟩

/-- The inner loop `for (let col = 0; col < columns.length; col++)
if (columns[col] <= entry.startMin) ...`: index of the first column whose
last-occupied-until value is at most the start, if any. -/
def findCol (columns : List Nat) (s : Nat) : Option Nat :=
  columns.findIdx? (fun endT => decide (endT ≤ s))

/-- The greedy column-assignment loop of `computeOverlapLayout`: `columns`
tracks the end time of the last event in each column; each entry goes to
the lowest reusable column, else opens a new one.  Returns the layout map
(with `totalColumns` still 0, as in the source) and the final column
state. -/
def assignLoop : List Entry → List Nat → List (Nat × LayoutEntry) →
    List (Nat × LayoutEntry) × List Nat
  | [], cols, layout => (layout, cols)
  | e :: rest, cols, layout =>
    match findCol cols e.startMin with
    | some i => assignLoop rest (cols.set i e.endMin) (setAssoc layout e.id ⟨i, 0⟩)
    | none => assignLoop rest (cols ++ [e.endMin]) (setAssoc layout e.id ⟨cols.length, 0⟩)

/-- The cluster-partition loop of `computeOverlapLayout`: walking the
sorted entries, an entry joins the current group when `currentGroup` is
empty or its start is below the running maximum end (`groupEnd`);
otherwise the current group is closed and a new one starts. -/
def groupLoop : List Entry → List Entry → Nat → List (List Entry)
  | [], cur, _ => if cur.isEmpty then [] else [cur]
  | e :: rest, cur, groupEnd =>
    if cur.isEmpty || decide (e.startMin < groupEnd) then
      groupLoop rest (cur ++ [e]) (max groupEnd e.endMin)
    else
      cur :: groupLoop rest [e] e.endMin

/-- `groups` as built by the source: initial `currentGroup = []`,
`groupEnd = 0`. -/
def groupEntries (l : List Entry) : List (List Entry) :=
  groupLoop l [] 0

/-- `Math.max(...group.map(e => layout.get(e.id).column))` over a
(nonempty) group; columns are non-negative so the spread max equals a fold
from 0. -/
def groupMaxCol (ly : List (Nat × LayoutEntry)) (g : List Entry) : Nat :=
  (g.map (fun e => (lookupEntry ly e.id).column)).foldl max 0

/-- `layout.get(entry.id).totalColumns = maxCol`: mutate the stored object
of one key, leaving its `column` untouched. -/
def updateTotal (ly : List (Nat × LayoutEntry)) (k : Nat) (tc : Nat) :
    List (Nat × LayoutEntry) :=
  ly.map (fun p => if p.1 == k then (p.1, ⟨p.2.column, tc⟩) else p)

/-- One iteration of `for (const group of groups)`: compute
`maxCol = Math.max(...) + 1` against the current layout and write it into
every member's entry. -/
def applyGroup (ly : List (Nat × LayoutEntry)) (g : List Entry) :
    List (Nat × LayoutEntry) :=
  g.foldl (fun acc e => updateTotal acc e.id (groupMaxCol ly g + 1)) ly

/-- `BaseViewRenderer.computeOverlapLayout(events)`, end to end: widen,
stable-sort, greedily assign columns, partition into clusters, then set
`totalColumns` per cluster.  The returned association list embeds the JS
`Map` (insertion order is the greedy-assignment order). -/
def computeOverlapLayout (events : List TimedEvent) : List (Nat × LayoutEntry) :=
  if events.isEmpty then []
  else
    let sorted := sortEntries (events.map toEntry)
    let layout := (assignLoop sorted [] []).1
    (groupEntries sorted).foldl applyGroup layout

/-! ### Specification-side notions for the layout claims

The claims speak about time overlap and about connected overlap clusters;
these notions are defined here on the widened entries, exactly as the
claims phrase them ("widened, half-open minute intervals"). -/

/-- Two widened half-open minute intervals share some time. -/
def overlaps (a b : Entry) : Prop :=
  a.startMin < b.endMin ∧ b.startMin < a.endMin

/-- The overlap-graph edge relation restricted to the entries of a given
list. -/
def overlapEdge (S : List Entry) (a b : Entry) : Prop :=
  a ∈ S ∧ b ∈ S ∧ overlaps a b

/-- `a` and `b` lie in one connected overlap cluster of `S`: they are
joined by a chain of pairwise-overlapping entries of `S` (the spec's
"maximal run of time intervals transitively overlapping in time"). -/
def connectedIn (S : List Entry) : Entry → Entry → Prop :=
  Relation.ReflTransGen (overlapEdge S)

/-! ### Concrete layout cases (claim C4) -/

/-- Event A of the spec's concrete case: 09:00 to 10:00. -/
def eventA : TimedEvent := ⟨1, 9 * 60, 10 * 60⟩

/-- Event B of the spec's concrete case: 09:30 to 10:30. -/
def eventB : TimedEvent := ⟨2, 9 * 60 + 30, 10 * 60 + 30⟩

/-- Event C of the spec's concrete case: 11:00 to 12:00. -/
def eventC : TimedEvent := ⟨3, 11 * 60, 12 * 60⟩

/-- The three fully-overlapping events of the spec's second concrete case:
all 09:00 to 10:00. -/
def tripleOverlap : List TimedEvent :=
  [⟨1, 9 * 60, 10 * 60⟩, ⟨2, 9 * 60, 10 * 60⟩, ⟨3, 9 * 60, 10 * 60⟩]

/-! ## Event Bus

Embedding of the `EventBus` class (`src/core/EventBus.js`).  Handler
functions are identified by opaque numbers.  Each subscription record
additionally carries a ghost field `idx` holding its registration
sequence number; the embedded code never reads it — it exists only so
that theorems can speak about registration order. -/

/-- A record stored in `this.events.get(eventName)`:
`\x7b handler, once, priority \x7d`, plus the ghost registration index. -/
structure Subscription where
  handler : Nat
  once : Bool
  priority : Int
  idx : Nat
deriving DecidableEq, Repr

/-- A record stored in `this.wildcardHandlers`:
`\x7b pattern, handler, once, priority \x7d`, plus the ghost registration
index. -/
structure WildcardSub where
  pattern : String
  handler : Nat
  once : Bool
  priority : Int
  idx : Nat
deriving DecidableEq, Repr

/-- The `EventBus` state: `events` is a `Map` from exact topic to its
handler array (association list in insertion order), `wildcardHandlers` a
`Set` of wildcard subscriptions (list in insertion order). -/
structure EventBus where
  events : List (String × List Subscription)
  wildcardHandlers : List WildcardSub
deriving DecidableEq, Repr

/-- `eventName.includes('*')`. -/
def hasStar (s : String) : Bool :=
  s.toList.contains '*'

/-- The comparator `(a, b) => b.priority - a.priority` orders `a` strictly
before `b` exactly when `a`'s priority is strictly greater. -/
def subLtB (a b : Subscription) : Bool :=
  decide (b.priority < a.priority)

/-- The `handlers.sort((a, b) => b.priority - a.priority)` call: a stable
sort by descending priority. -/
def sortByPriority : List Subscription → List Subscription :=
  sortByKeep subLtB

/-- `EventBus.on(eventName, handler, opts)` (state effect): a wildcard
pattern is added to `wildcardHandlers`; otherwise the subscription is
pushed onto the topic's handler array, which is then re-sorted by
descending priority.  `idx` is the ghost registration index supplied by
the caller. -/
def EventBus.on (bus : EventBus) (eventName : String) (handler : Nat)
    (once : Bool) (priority : Int) (idx : Nat) : EventBus :=
  if hasStar eventName then
    { bus with wildcardHandlers :=
        bus.wildcardHandlers ++ [⟨eventName, handler, once, priority, idx⟩] }
  else
    let handlers := (lookupAssoc bus.events eventName).getD []
    let sorted := sortByPriority (handlers ++ [⟨handler, once, priority, idx⟩])
    { bus with events := setAssoc bus.events eventName sorted }

/-- One registration request (the arguments of one `on` call). -/
structure Registration where
  eventName : String
  handler : Nat
  once : Bool
  priority : Int
deriving DecidableEq, Repr

/-- Replay a list of `on` calls against a bus, threading the registration
counter. -/
def applyRegs : EventBus → Nat → List Registration → EventBus
  | bus, _, [] => bus
  | bus, n, r :: rest =>
      applyRegs (bus.on r.eventName r.handler r.once r.priority n) (n + 1) rest

/-- A bus built from scratch by a sequence of `on` calls. -/
def mkBus (regs : List Registration) : EventBus :=
  applyRegs ⟨[], []⟩ 0 regs

/-- Anchored glob matching over character lists: `*` matches any run of
characters, every other character matches itself. -/
def globMatch : List Char → List Char → Bool
  | [], [] => true
  | [], _ :: _ => false
  | c :: ps, s =>
    if c = '*' then
      globMatch ps s ||
        (match s with
         | [] => false
         | _ :: s' => globMatch ('*' :: ps) s')
    else
      match s with
      | [] => false
      | c' :: s' => c = c' && globMatch ps s'
termination_by ps s => (ps.length, s.length)

/-- `EventBus.matchesPattern(eventName, pattern)`: the source builds the
anchored regex obtained from the pattern by replacing each `*` with `.*`
and tests the event name against it.  For the patterns this bus is used
with — topic names made of letters, digits, colons and dashes, i.e. no
further regex metacharacters — that is exactly anchored glob matching. -/
def matchesPattern (eventName pattern : String) : Bool :=
  globMatch pattern.toList eventName.toList

/-- The delivery-order specification for exact-topic handlers: `a` must be
invoked before `b` when `a`'s priority is strictly higher, or the
priorities are equal and `a` was registered earlier. -/
def priorityOrder (a b : Subscription) : Prop :=
  b.priority < a.priority ∨ (a.priority = b.priority ∧ a.idx < b.idx)

/-- The snapshot of exact-topic subscriptions delivered by `emit`:
`[...this.events.get(eventName)]` (empty when the topic is absent). -/
def exactCalls (bus : EventBus) (topic : String) : List Subscription :=
  (lookupAssoc bus.events topic).getD []

/-- The snapshot of wildcard subscriptions delivered by `emit`: the
members of `[...this.wildcardHandlers]` whose pattern matches, in
insertion order. -/
def wildcardCalls (bus : EventBus) (topic : String) : List WildcardSub :=
  bus.wildcardHandlers.filter (fun s => matchesPattern topic s.pattern)

/-- The delivery loop of `emit` over a list of handler identities.
`behaviour h = true` means handler `h` raises when invoked.  `catching`
records whether each invocation is wrapped in the source's try/catch:
when it is (as in the source), a raised exception is caught and logged and
the loop continues; were it not, the first raise would abort delivery and
escape.  Returns the handlers actually invoked, in order, and whether an
exception escaped to the caller of `emit`. -/
def deliverLoop (catching : Bool) (behaviour : Nat → Bool) :
    List Nat → List Nat × Bool
  | [] => ([], false)
  | h :: t =>
      if behaviour h && !catching then ([h], true)
      else
        let r := deliverLoop catching behaviour t
        (h :: r.1, r.2)

/-- `EventBus.emit(eventName, data)`, observable behaviour: deliver to the
exact-topic snapshot first, then to the matching wildcard snapshot, every
invocation wrapped in try/catch.  (The removal of `once` subscriptions
mutates only the stored arrays, never the snapshots being iterated, so it
does not affect the current delivery.) -/
def emitRun (behaviour : Nat → Bool) (bus : EventBus) (topic : String) :
    List Nat × Bool :=
  deliverLoop true behaviour
    ((exactCalls bus topic).map Subscription.handler ++
      (wildcardCalls bus topic).map WildcardSub.handler)

/-! ## State Store

Embedding of the `StateManager` class (`src/core/StateManager.js`).  The
store wraps the external `@forcecalendar/core` `Calendar` engine, which is
not part of this repository; the engine is modelled below from the spec's
capability contract.  Dates are embedded as opaque numbers (timestamps);
a JS callback registered with `subscribe` is identified by an opaque
number. -/

/-- A calendar event as held by the engine and mirrored by the store:
id (opaque unique identifier), title, start/end instants (the `end` field
is named `endTime` because `end` is reserved in Lean), all-day flag and
optional colour token. -/
structure Event where
  id : Nat
  title : String
  start : Nat
  endTime : Nat
  allDay : Bool
  backgroundColor : Option String
deriving DecidableEq, Repr

/-- A partial update object as passed to `updateEvent(id, updates)`:
every field is optional. -/
structure EventPatch where
  title : Option String := none
  start : Option Nat := none
  endTime : Option Nat := none
  allDay : Option Bool := none
  backgroundColor : Option (Option String) := none
deriving DecidableEq, Repr

/-- Modelled from the spec: applying an update object to an engine event —
fields present in the patch overwrite, the rest are kept (§6 treats the
engine's `updateEvent` as patching the event of that identity). -/
def applyPatch (e : Event) (p : EventPatch) : Event :=
  { id := e.id
    title := p.title.getD e.title
    start := p.start.getD e.start
    endTime := p.endTime.getD e.endTime
    allDay := p.allDay.getD e.allDay
    backgroundColor := p.backgroundColor.getD e.backgroundColor }

/-- Modelled from the spec: the external `@forcecalendar/core` `Calendar`
engine, which is not part of this repository.  The spec's §6 capability
contract is all we rely on: the engine owns the authoritative event
collection, an `Event.id` is an opaque unique identifier, and a mutation
with an invalid id or payload is rejected with a null/false return.  Only
the event collection is modelled (navigation state plays no role in the
claims settled against the engine). -/
structure Calendar where
  events : List Event
deriving DecidableEq, Repr

/-- Modelled from the spec: `calendar.addEvent(event)` returns the stored
event on success, null on rejection.  Rejection is modelled as the one
invalid-payload condition derivable from the contract: a second event with
an already-present identity. -/
def Calendar.addEvent (cal : Calendar) (e : Event) : Option (Calendar × Event) :=
  if cal.events.any (fun x => x.id == e.id) then none
  else some (⟨cal.events ++ [e]⟩, e)

/-- Modelled from the spec: `calendar.updateEvent(id, updates)` patches
the event of that identity and returns it, or null when no event has that
identity. -/
def Calendar.updateEvent (cal : Calendar) (eventId : Nat) (p : EventPatch) :
    Option (Calendar × Event) :=
  match cal.events.find? (fun x => x.id == eventId) with
  | none => none
  | some old =>
      some (⟨cal.events.map (fun x => if x.id == eventId then applyPatch x p else x)⟩,
        applyPatch old p)

/-- Modelled from the spec: `calendar.removeEvent(id)` removes by identity
and reports success; null/false when no event has that identity. -/
def Calendar.removeEvent (cal : Calendar) (eventId : Nat) : Option Calendar :=
  if cal.events.any (fun x => x.id == eventId) then
    some ⟨cal.events.filter (fun x => x.id != eventId)⟩
  else none

/-- The calendar view enum. -/
inductive View
  | month
  | week
  | day
deriving DecidableEq, Repr

/-- The display configuration mapping held under the `config` key. -/
structure Config where
  weekStartsOn : Nat
  locale : String
deriving DecidableEq, Repr

/-- The `this.state` object of `StateManager`. -/
structure CalendarState where
  view : View
  currentDate : Nat
  events : List Event
  selectedEvent : Option Event
  selectedDate : Option Nat
  loading : Bool
  error : Option String
  config : Config
deriving DecidableEq, Repr

/-- The keys of the state object, in `Object.keys` order. -/
inductive StateKey
  | view
  | currentDate
  | events
  | selectedEvent
  | selectedDate
  | loading
  | error
  | config
deriving DecidableEq, Repr

/-- The (heterogeneous) value stored under one state key. -/
inductive StateVal
  | ofView (v : View)
  | ofDate (d : Nat)
  | ofEvents (es : List Event)
  | ofSelEvent (e : Option Event)
  | ofSelDate (d : Option Nat)
  | ofBool (b : Bool)
  | ofError (e : Option String)
  | ofConfig (c : Config)
deriving DecidableEq, Repr

/-- Reading one key of the state object. -/
def CalendarState.get (s : CalendarState) : StateKey → StateVal
  | .view => .ofView s.view
  | .currentDate => .ofDate s.currentDate
  | .events => .ofEvents s.events
  | .selectedEvent => .ofSelEvent s.selectedEvent
  | .selectedDate => .ofSelDate s.selectedDate
  | .loading => .ofBool s.loading
  | .error => .ofError s.error
  | .config => .ofConfig s.config

/-- `Object.keys(newState)` in declaration order. -/
def stateKeys : List StateKey :=
  [.view, .currentDate, .events, .selectedEvent, .selectedDate, .loading,
    .error, .config]

/-- The bus topic `state:<key>:changed` for one key. -/
def keyTopic : StateKey → String
  | .view => "state:view:changed"
  | .currentDate => "state:currentDate:changed"
  | .events => "state:events:changed"
  | .selectedEvent => "state:selectedEvent:changed"
  | .selectedDate => "state:selectedDate:changed"
  | .loading => "state:loading:changed"
  | .error => "state:error:changed"
  | .config => "state:config:changed"

/-- A partial state update object, as passed to `setState(updates)`. -/
structure StateUpdate where
  view : Option View := none
  currentDate : Option Nat := none
  events : Option (List Event) := none
  selectedEvent : Option (Option Event) := none
  selectedDate : Option (Option Nat) := none
  loading : Option Bool := none
  error : Option (Option String) := none
  config : Option Config := none
deriving DecidableEq, Repr

/-- The object spread `this.state = \x7b ...this.state, ...updates \x7d`. -/
def applyUpdates (s : CalendarState) (u : StateUpdate) : CalendarState :=
  { view := u.view.getD s.view
    currentDate := u.currentDate.getD s.currentDate
    events := u.events.getD s.events
    selectedEvent := u.selectedEvent.getD s.selectedEvent
    selectedDate := u.selectedDate.getD s.selectedDate
    loading := u.loading.getD s.loading
    error := u.error.getD s.error
    config := u.config.getD s.config }

/-- The payload object handed to `eventBus.emit` on the `event:error`
topic: the per-action extra fields (`event` for add, `eventId, updates`
for update, `eventId` for delete). -/
inductive ErrPayload
  | forAdd (event : Event)
  | forUpdate (eventId : Nat) (updates : EventPatch)
  | forDelete (eventId : Nat)
deriving DecidableEq, Repr

/-- A payload handed to `eventBus.emit` by the state store. -/
inductive BusPayload
  | errorInfo (action : String) (payload : ErrPayload) (error : String)
  | withEvent (event : Event)
  | withEventId (eventId : Nat)
  | keyChanged (key : StateKey) (oldValue newValue : StateVal)
      (state : CalendarState)
  | stateChanged (oldState newState : CalendarState)
      (changedKeys : List StateKey)
deriving DecidableEq, Repr

/-- One bus emission: topic and payload. -/
abbrev Emission := String × BusPayload

/-- The full state snapshots a payload object carries (used to state what
a change notification lets an observer diff): the per-key payload carries
only the next snapshot (its `state` field), the aggregate payload carries
both. -/
def fullSnapshots : BusPayload → List CalendarState
  | .keyChanged _ _ _ st => [st]
  | .stateChanged o n _ => [o, n]
  | _ => []

/-- One invocation of a direct subscriber callback: `notifySubscribers`
calls every callback as `callback(newState, oldState)` (a raising callback
is caught and logged, so the call list never depends on subscriber
faults). -/
structure SubscriberCall where
  newState : CalendarState
  oldState : CalendarState
deriving DecidableEq, Repr

/-- The `StateManager` instance state: the wrapped engine, the mirrored
state object and the `Set` of direct subscribers (callback identities in
insertion order). -/
structure StateManager where
  calendar : Calendar
  state : CalendarState
  subscribers : List Nat
deriving DecidableEq, Repr

/-- `changedKeys = Object.keys(newState).filter(key => oldState[key] !==
newState[key])`.  The source compares by JS reference inequality; the
store always writes a freshly constructed value exactly when it intends a
change, so on the embedded state the comparison is value inequality. -/
def changedKeys (oldS newS : CalendarState) : List StateKey :=
  stateKeys.filter (fun k => decide (oldS.get k ≠ newS.get k))

/-- `emitStateChange(oldState, newState)`: one `state:<key>:changed`
emission per changed key — payload `\x7b oldValue, newValue, state \x7d` —
then, when anything changed, one aggregate `state:changed` emission with
payload `\x7b oldState, newState, changedKeys \x7d`. -/
def emitStateChange (oldS newS : CalendarState) : List Emission :=
  let changed := changedKeys oldS newS
  (changed.map fun k =>
      (keyTopic k, BusPayload.keyChanged k (oldS.get k) (newS.get k) newS)) ++
    (if changed.isEmpty then []
     else [("state:changed", BusPayload.stateChanged oldS newS changed)])

/-- `notifySubscribers(oldState, newState)`: every subscriber is called
with `(newState, oldState)`. -/
def notifySubscribers (subs : List Nat) (oldS newS : CalendarState) :
    List (Nat × SubscriberCall) :=
  subs.map (fun h => (h, ⟨newS, oldS⟩))

/-- `StateManager.setState(updates, \x7b silent \x7d)`: replace the state
immutably; unless silent, notify the direct subscribers and emit the
per-key and aggregate bus topics.  Returns the new instance plus the bus
emissions and subscriber calls the call produced. -/
def StateManager.setState (sm : StateManager) (u : StateUpdate)
    (silent : Bool) : StateManager × List Emission × List (Nat × SubscriberCall) :=
  let oldS := sm.state
  let newS := applyUpdates oldS u
  let sm' := { sm with state := newS }
  if silent then (sm', [], [])
  else (sm', emitStateChange oldS newS, notifySubscribers sm.subscribers oldS newS)

/-- `StateManager._eventsMatch(arr1, arr2)`: equal lengths and every id of
`arr2` occurs among the ids of `arr1`. -/
def eventsMatch (arr1 arr2 : List Event) : Bool :=
  arr1.length == arr2.length &&
    arr2.all (fun e => arr1.any (fun x => x.id == e.id))

/-- `StateManager._syncEventsFromCore(\x7b silent, force \x7d)`: read the
engine's event collection; replace the mirror (a fresh copy of the
engine's array) when forced, or when the length or the id set differs;
otherwise leave the state untouched. -/
def StateManager.syncEventsFromCore (sm : StateManager)
    (silent force : Bool) : StateManager × List Emission × List (Nat × SubscriberCall) :=
  let coreEvents := sm.calendar.events
  if force || sm.state.events.length != coreEvents.length ||
      !eventsMatch sm.state.events coreEvents then
    sm.setState { events := some coreEvents } silent
  else (sm, [], [])

/-- The outcome of one state-store mutation method: the new instance, the
JS return value, and the bus emissions and direct-subscriber calls made
during the call, each in order. -/
structure StepOut (α : Type) where
  sm : StateManager
  result : α
  emissions : List Emission
  calls : List (Nat × SubscriberCall)
deriving Repr

/-- `StateManager.addEvent(event)`: delegate to the engine; on rejection
emit `event:error` and return null without touching the mirror; on
success resync (cheap identity check suffices — an add changes the id
set) and emit `event:add` then `event:added` with the engine-returned
event. -/
def StateManager.addEvent (sm : StateManager) (event : Event) :
    StepOut (Option Event) :=
  match sm.calendar.addEvent event with
  | none =>
      { sm := sm
        result := none
        emissions :=
          [("event:error", .errorInfo "add" (.forAdd event) "Failed to add event")]
        calls := [] }
  | some (cal', added) =>
      let sm1 := { sm with calendar := cal' }
      let r := sm1.syncEventsFromCore false false
      { sm := r.1
        result := some added
        emissions := r.2.1 ++
          [("event:add", .withEvent added), ("event:added", .withEvent added)]
        calls := r.2.2 }

/-- `StateManager.updateEvent(eventId, updates)`: silent pre-sync, then
delegate; on rejection emit `event:error` and return null; on success the
resync is forced (`force: true`), because an update leaves the id set
unchanged, then `event:update` and `event:updated` are emitted. -/
def StateManager.updateEvent (sm : StateManager) (eventId : Nat)
    (updates : EventPatch) : StepOut (Option Event) :=
  let sm1 := (sm.syncEventsFromCore true false).1
  match sm1.calendar.updateEvent eventId updates with
  | none =>
      { sm := sm1
        result := none
        emissions :=
          [("event:error",
            .errorInfo "update" (.forUpdate eventId updates) "Event not found in calendar")]
        calls := [] }
  | some (cal', ev) =>
      let sm2 := { sm1 with calendar := cal' }
      let r := sm2.syncEventsFromCore false true
      { sm := r.1
        result := some ev
        emissions := r.2.1 ++
          [("event:update", .withEvent ev), ("event:updated", .withEvent ev)]
        calls := r.2.2 }

/-- `StateManager.deleteEvent(eventId)`: silent pre-sync, then delegate;
on rejection emit `event:error` and return false; on success resync and
emit `event:remove` then `event:deleted`. -/
def StateManager.deleteEvent (sm : StateManager) (eventId : Nat) :
    StepOut Bool :=
  let sm1 := (sm.syncEventsFromCore true false).1
  match sm1.calendar.removeEvent eventId with
  | none =>
      { sm := sm1
        result := false
        emissions :=
          [("event:error", .errorInfo "delete" (.forDelete eventId) "Event not found")]
        calls := [] }
  | some cal' =>
      let sm2 := { sm1 with calendar := cal' }
      let r := sm2.syncEventsFromCore false false
      { sm := r.1
        result := true
        emissions := r.2.1 ++
          [("event:remove", .withEventId eventId), ("event:deleted", .withEventId eventId)]
        calls := r.2.2 }

/-- The `StateManager` constructor: wrap the engine (which may hold
pre-loaded events), initialise the state with an empty mirror, then run
the initial silent sync.  View and date are read from the engine; they are
passed in here since only the event collection of the engine is
modelled. -/
def mkStateManager (cal : Calendar) (view : View) (date : Nat)
    (cfg : Config) : StateManager :=
  let st : CalendarState :=
    { view := view
      currentDate := date
      events := []
      selectedEvent := none
      selectedDate := none
      loading := false
      error := none
      config := cfg }
  (StateManager.syncEventsFromCore ⟨cal, st, []⟩ true false).1

/-- One mutation request against the store (the claims' add/update/delete
sequences). -/
inductive StoreOp
  | add (e : Event)
  | update (eventId : Nat) (p : EventPatch)
  | delete (eventId : Nat)
deriving DecidableEq, Repr

/-- Run one mutation method, keeping the resulting instance. -/
def applyOp (sm : StateManager) : StoreOp → StateManager
  | .add e => (sm.addEvent e).sm
  | .update eventId p => (sm.updateEvent eventId p).sm
  | .delete eventId => (sm.deleteEvent eventId).sm

/-- The trace of instances observed after each call of a mutation
sequence. -/
def opTrace (sm : StateManager) : List StoreOp → List StateManager
  | [] => []
  | op :: rest =>
      let sm' := applyOp sm op
      sm' :: opTrace sm' rest

/-- The ids of a list of events. -/
def idsOf (es : List Event) : List Nat :=
  es.map Event.id

/-- Two event lists carry the same set of identities. -/
def sameIdSet (a b : List Event) : Prop :=
  ∀ k, k ∈ idsOf a ↔ k ∈ idsOf b

/-- The ids of a list of layout entries. -/
def entryIds (l : List Entry) : List Nat :=
  l.map Entry.id

/-- The keys of an association list. -/
def keysOf {α : Type} (m : List (Nat × α)) : List Nat :=
  m.map Prod.fst

/-- A sample event used to instantiate theorems with hypotheses at a
concrete input. -/
def sampleEvent : Event :=
  { id := 1, title := "Standup", start := 540, endTime := 600,
    allDay := false, backgroundColor := none }

/-- A sample configuration. -/
def sampleConfig : Config :=
  { weekStartsOn := 0, locale := "en-US" }

/-- A sample state object (month view, empty mirror). -/
def sampleState : CalendarState :=
  { view := .month
    currentDate := 0
    events := []
    selectedEvent := none
    selectedDate := none
    loading := false
    error := none
    config := sampleConfig }

/-- A sample store instance whose engine holds `sampleEvent` and whose
mirror is in sync, with one direct subscriber. -/
def sampleManager : StateManager :=
  { calendar := ⟨[sampleEvent]⟩
    state := { sampleState with events := [sampleEvent] }
    subscribers := [7] }

/-! ## Reconciliation controller

Embedding of the state-change handling of the `ForceCalendar` component
(`src/components/ForceCalendar.js`, `handleStateChange` and `afterRender`,
together with `BaseComponent.render` from `src/core/BaseComponent.js`).

The DOM facts the control flow depends on are explicit in the sources:
`BaseComponent.render()` assigns the freshly built template string to
`this._contentWrapper.innerHTML`, which replaces the whole shadow-DOM
content; the template's view area is the empty
`<div id="calendar-view-container"></div>` produced by `renderView()`, so
immediately afterwards the container has zero children (the source's own
comment in `afterRender` records this: "render() clears shadow DOM").
`afterRender` then either skips — only when an instance for the current
view exists AND the container still has children — or disposes the
previous renderer (cleanup + unsubscribe) and constructs a new one, whose
`render()` fills the container.  Renderer constructions and disposals are
counted by ghost fields so theorems can speak about "swap renderer". -/

/-- The reconciliation-relevant state of a mounted `ForceCalendar`:
`currentView` is `this.currentView`, `instanceView` the `_viewType` of
`this._currentViewInstance` (none when no instance exists),
`containerChildren` the child count of the `#calendar-view-container`
element in the live shadow DOM, and `created`/`disposed` are ghost
counters of renderer constructions and disposals. -/
structure WidgetState where
  currentView : Option View
  instanceView : Option View
  containerChildren : Nat
  created : Nat
  disposed : Nat
deriving DecidableEq, Repr

/-- `ForceCalendar.afterRender()`, the view-management part: skip when an
instance of the current view type exists and the container still has
content; otherwise dispose any previous instance and create (and render)
a renderer for the current view. -/
def WidgetState.afterRender (w : WidgetState) : WidgetState :=
  match w.currentView with
  | none => w
  | some v =>
      match w.instanceView with
      | some iv =>
          if iv = v && decide (0 < w.containerChildren) then w
          else
            { w with instanceView := some v, containerChildren := 1,
                     created := w.created + 1, disposed := w.disposed + 1 }
      | none =>
          { w with instanceView := some v, containerChildren := 1,
                   created := w.created + 1 }

/-- `BaseComponent.render()`: replacing `_contentWrapper.innerHTML` with
the template empties the view container (the template's
`#calendar-view-container` div has no children), then `afterRender`
runs. -/
def WidgetState.render (w : WidgetState) : WidgetState :=
  WidgetState.afterRender { w with containerChildren := 0 }

/-- `ForceCalendar.handleStateChange(newState, oldState)`: update
`this.currentView` when the view key changed, then re-render
unconditionally. -/
def WidgetState.handleStateChange (w : WidgetState) (oldView newView : View) :
    WidgetState :=
  let w1 := if newView ≠ oldView then { w with currentView := some newView } else w
  w1.render

/-- A mounted calendar showing the month view: one renderer instance was
created at mount, its content fills the view container, nothing disposed
yet. -/
def mountedMonthWidget : WidgetState :=
  { currentView := some .month
    instanceView := some .month
    containerChildren := 1
    created := 1
    disposed := 0 }

/-! ## General lemmas about the embedded container operations -/

theorem mem_insBy {α : Type} (keep : α → α → Bool) (s : α) (l : List α)
    (x : α) : x ∈ insBy keep s l ↔ x = s ∨ x ∈ l := by
  induction l with
  | nil => simp [insBy]
  | cons h t ih =>
    simp only [insBy]
    cases hk : keep h s
    · simp [List.mem_cons]
    · simp [List.mem_cons, ih]
      tauto

theorem insBy_perm {α : Type} (keep : α → α → Bool) (s : α) (l : List α) :
    (insBy keep s l).Perm (s :: l) := by
  induction l with
  | nil => simp [insBy]
  | cons h t ih =>
    simp only [insBy]
    cases hk : keep h s
    · simp
    · simp only [if_true]
      exact (ih.cons h).trans (List.Perm.swap s h t)

theorem sortByKeep_perm {α : Type} (keep : α → α → Bool) (l : List α) :
    (sortByKeep keep l).Perm l := by
  induction l with
  | nil => simp [sortByKeep]
  | cons h t ih =>
    simp only [sortByKeep]
    exact (insBy_perm keep h (sortByKeep keep t)).trans (ih.cons h)

theorem mem_sortByKeep {α : Type} (keep : α → α → Bool) (l : List α)
    (x : α) : x ∈ sortByKeep keep l ↔ x ∈ l :=
  (sortByKeep_perm keep l).mem_iff

theorem pairwise_insBy {α : Type} {keep : α → α → Bool} {R : α → α → Prop}
    (htrans : ∀ a b c, R a b → R b c → R a c)
    (h1 : ∀ a b, keep a b = true → R a b) (s : α) (l : List α)
    (hl : List.Pairwise R l) (hs : ∀ x ∈ l, keep x s = false → R s x) :
    List.Pairwise R (insBy keep s l) := by
  induction l with
  | nil => simp [insBy]
  | cons h t ih =>
    rcases List.pairwise_cons.mp hl with ⟨hht, hpt⟩
    simp only [insBy]
    cases hk : keep h s
    · simp only [Bool.false_eq_true, if_false]
      have hsh : R s h := hs h (List.mem_cons_self h t) hk
      refine List.pairwise_cons.mpr ⟨?_, hl⟩
      intro x hx
      rcases List.mem_cons.mp hx with rfl | hxt
      · exact hsh
      · exact htrans s h x hsh (hht x hxt)
    · simp only [if_true]
      refine List.pairwise_cons.mpr ⟨?_, ih hpt (fun x hx hkx => hs x (List.mem_cons_of_mem h hx) hkx)⟩
      intro x hx
      rcases (mem_insBy keep s t x).mp hx with rfl | hxt
      · exact h1 h x hk
      · exact hht x hxt

theorem pairwise_sortByKeep {α : Type} {keep : α → α → Bool}
    {R : α → α → Prop} (htrans : ∀ a b c, R a b → R b c → R a c)
    (h1 : ∀ a b, keep a b = true → R a b) (l : List α)
    (hp : List.Pairwise (fun a b => keep b a = false → R a b) l) :
    List.Pairwise R (sortByKeep keep l) := by
  induction l with
  | nil => simp [sortByKeep]
  | cons h t ih =>
    rcases List.pairwise_cons.mp hp with ⟨hht, hpt⟩
    simp only [sortByKeep]
    refine pairwise_insBy htrans h1 h _ (ih hpt) ?_
    intro x hx hkx
    exact hht x ((mem_sortByKeep keep t x).mp hx) hkx

theorem lookupAssoc_nil {κ α : Type} [DecidableEq κ] (k : κ) :
    lookupAssoc ([] : List (κ × α)) k = none := rfl

theorem lookupAssoc_cons {κ α : Type} [DecidableEq κ] (k' : κ) (v' : α)
    (t : List (κ × α)) (k : κ) :
    lookupAssoc ((k', v') :: t) k = if k' = k then some v' else lookupAssoc t k := by
  by_cases h : k' = k <;> simp [lookupAssoc, List.find?_cons, h]

theorem lookupAssoc_setAssoc_self {κ α : Type} [DecidableEq κ]
    (m : List (κ × α)) (k : κ) (v : α) :
    lookupAssoc (setAssoc m k v) k = some v := by
  induction m with
  | nil => simp [setAssoc, lookupAssoc_cons]
  | cons p t ih =>
    obtain ⟨k', v'⟩ := p
    simp only [setAssoc]
    by_cases h : k' = k
    · simp [h, lookupAssoc_cons]
    · simp [h, lookupAssoc_cons, ih]

theorem lookupAssoc_setAssoc_ne {κ α : Type} [DecidableEq κ]
    (m : List (κ × α)) (k' k : κ) (v : α) (h : k' ≠ k) :
    lookupAssoc (setAssoc m k' v) k = lookupAssoc m k := by
  induction m with
  | nil => simp [setAssoc, lookupAssoc_cons, h]
  | cons p t ih =>
    obtain ⟨k0, v0⟩ := p
    simp only [setAssoc]
    by_cases h0 : k0 = k'
    · subst h0
      simp [lookupAssoc_cons, h]
    · simp [h0, lookupAssoc_cons, ih]

theorem mem_keysOf_setAssoc {α : Type} (m : List (Nat × α)) (k : Nat)
    (v : α) (k' : Nat) :
    k' ∈ keysOf (setAssoc m k v) ↔ k' = k ∨ k' ∈ keysOf m := by
  induction m with
  | nil => simp [setAssoc, keysOf]
  | cons p t ih =>
    obtain ⟨k0, v0⟩ := p
    simp only [setAssoc]
    by_cases h0 : k0 = k
    · subst h0
      simp [keysOf]
    · simp only [h0, if_false, keysOf, List.map_cons, List.mem_cons] at ih ⊢
      tauto

theorem nodup_keysOf_setAssoc {α : Type} (m : List (Nat × α)) (k : Nat)
    (v : α) (h : (keysOf m).Nodup) : (keysOf (setAssoc m k v)).Nodup := by
  induction m with
  | nil => simp [setAssoc, keysOf]
  | cons p t ih =>
    obtain ⟨k0, v0⟩ := p
    simp only [keysOf, List.map_cons, List.nodup_cons] at h
    simp only [setAssoc]
    by_cases h0 : k0 = k
    · subst h0
      simpa [keysOf] using h
    · simp only [h0, if_false, keysOf, List.map_cons, List.nodup_cons]
      refine ⟨?_, ih h.2⟩
      intro hmem
      rcases (mem_keysOf_setAssoc t k v k0).mp hmem with rfl | hmem'
      · exact h0 rfl
      · exact h.1 hmem'

theorem lookupAssoc_of_mem_nodup {α : Type} (m : List (Nat × α))
    (hnd : (keysOf m).Nodup) (k : Nat) (v : α) (hm : (k, v) ∈ m) :
    lookupAssoc m k = some v := by
  induction m with
  | nil => simp at hm
  | cons p t ih =>
    obtain ⟨k0, v0⟩ := p
    simp only [keysOf, List.map_cons, List.nodup_cons] at hnd
    rcases List.mem_cons.mp hm with heq | hmem
    · obtain ⟨rfl, rfl⟩ := Prod.mk.injEq .. ▸ heq
      simp [lookupAssoc_cons]
    · have hne : k0 ≠ k := by
        rintro rfl
        exact hnd.1 (by simpa [keysOf] using List.mem_map_of_mem Prod.fst hmem)
      simp [lookupAssoc_cons, hne, ih hnd.2 hmem]

/-! ## Claim C4: concrete overlap-layout cases -/

/-- C4.  On events A 09:00 to 10:00, B 09:30 to 10:30 and C 11:00 to 12:00,
`computeOverlapLayout` assigns A column 0 and B column 1, both with
`totalColumns = 2`, and C column 0 with `totalColumns = 1`; on three events
all spanning 09:00 to 10:00 it assigns three pairwise-distinct columns,
each with `totalColumns = 3`. -/
theorem overlap_layout_concrete_cases :
    (lookupEntry (computeOverlapLayout [eventA, eventB, eventC]) eventA.id = ⟨0, 2⟩ ∧
      lookupEntry (computeOverlapLayout [eventA, eventB, eventC]) eventB.id = ⟨1, 2⟩ ∧
      lookupEntry (computeOverlapLayout [eventA, eventB, eventC]) eventC.id = ⟨0, 1⟩) ∧
    ((lookupEntry (computeOverlapLayout tripleOverlap) 1).column ≠
        (lookupEntry (computeOverlapLayout tripleOverlap) 2).column ∧
      (lookupEntry (computeOverlapLayout tripleOverlap) 1).column ≠
        (lookupEntry (computeOverlapLayout tripleOverlap) 3).column ∧
      (lookupEntry (computeOverlapLayout tripleOverlap) 2).column ≠
        (lookupEntry (computeOverlapLayout tripleOverlap) 3).column ∧
      (lookupEntry (computeOverlapLayout tripleOverlap) 1).totalColumns = 3 ∧
      (lookupEntry (computeOverlapLayout tripleOverlap) 2).totalColumns = 3 ∧
      (lookupEntry (computeOverlapLayout tripleOverlap) 3).totalColumns = 3) := by
  decide

/-! ## Claim C8: reconciliation on a date-only change

The claim states that a change notification with the view unchanged and
only the date changed leads to a title update and a content-only repaint,
and must NOT dispose and re-create the active view renderer.  The code
does otherwise: `handleStateChange` re-renders unconditionally,
`BaseComponent.render()` resets `_contentWrapper.innerHTML` — emptying the
`#calendar-view-container` div — and `afterRender`'s
"view already exists with content" guard therefore finds an empty
container and falls through to the dispose-and-create branch.  The
component's own comments ("Only create view once per view type change",
"View already exists with content, skipping creation") state the claimed
intent, so this is recorded as a defect of the code rather than of the
specification. -/

/-- C8.  Evaluating the embedded controller at the failing input — a
mounted month-view widget receiving a notification whose view is unchanged
(a date-only state change) — shows the active renderer being disposed and
a new one created: the renderer swap the claim forbids. -/
theorem date_only_change_swaps_renderer :
    (mountedMonthWidget.handleStateChange View.month View.month).created =
        mountedMonthWidget.created + 1 ∧
      (mountedMonthWidget.handleStateChange View.month View.month).disposed =
        mountedMonthWidget.disposed + 1 := by
  decide

/-! ## State store lemmas -/

theorem applyPatch_id (x : Event) (p : EventPatch) : (applyPatch x p).id = x.id := rfl

theorem eventsMatch_refl (es : List Event) : eventsMatch es es = true := by
  simp only [eventsMatch, beq_self_eq_true, Bool.true_and, List.all_eq_true]
  intro e he
  exact List.any_eq_true.mpr ⟨e, he, by simp⟩

theorem setState_fst (sm : StateManager) (u : StateUpdate) (silent : Bool) :
    (sm.setState u silent).1 = { sm with state := applyUpdates sm.state u } := by
  unfold StateManager.setState
  cases silent <;> simp

theorem applyUpdates_events (s : CalendarState) (es : List Event) :
    applyUpdates s { events := some es } = { s with events := es } := rfl

theorem sync_fst (sm : StateManager) (silent force : Bool) :
    (sm.syncEventsFromCore silent force).1 =
      if force || sm.state.events.length != sm.calendar.events.length ||
          !eventsMatch sm.state.events sm.calendar.events then
        { sm with state := { sm.state with events := sm.calendar.events } }
      else sm := by
  unfold StateManager.syncEventsFromCore
  split
  · rw [if_pos (by assumption)]
    rw [setState_fst, applyUpdates_events]
  · rw [if_neg (by assumption)]

theorem sync_calendar (sm : StateManager) (silent force : Bool) :
    ((sm.syncEventsFromCore silent force).1).calendar = sm.calendar := by
  rw [sync_fst]
  split <;> rfl

theorem sync_skip (sm : StateManager) (silent : Bool)
    (h : sm.state.events = sm.calendar.events) :
    (sm.syncEventsFromCore silent false).1 = sm := by
  rw [sync_fst, if_neg]
  simp [h, eventsMatch_refl]

theorem sync_inv_cases (sm : StateManager) (silent force : Bool)
    (h : sm.state.events = sm.calendar.events ∨
      sm.state.events.length ≠ sm.calendar.events.length ∨ force = true) :
    ((sm.syncEventsFromCore silent force).1).state.events =
      ((sm.syncEventsFromCore silent force).1).calendar.events := by
  rw [sync_fst]
  split
  · rfl
  · next hcond =>
    simp only [Bool.or_eq_true, not_or, Bool.not_eq_true] at hcond
    rcases h with h | h | h
    · exact h
    · have hb : (sm.state.events.length != sm.calendar.events.length) = true :=
        bne_iff_ne.mpr h
      rw [hcond.1.2] at hb
      exact absurd hb (by simp)
    · rw [h] at hcond
      exact absurd hcond.1.1 (by simp)

theorem applyOp_inv (sm : StateManager) (op : StoreOp)
    (h : sm.state.events = sm.calendar.events) :
    (applyOp sm op).state.events = (applyOp sm op).calendar.events := by
  cases op with
  | add e =>
    simp only [applyOp, StateManager.addEvent]
    cases hadd : sm.calendar.addEvent e with
    | none => exact h
    | some q =>
      obtain ⟨cal', added⟩ := q
      have hcal : cal'.events = sm.calendar.events ++ [e] := by
        unfold Calendar.addEvent at hadd
        split at hadd
        · exact absurd hadd (by simp)
        · obtain ⟨rfl, rfl⟩ := Prod.mk.injEq .. ▸ Option.some.injEq .. ▸ hadd
          rfl
      refine sync_inv_cases _ false false (Or.inr (Or.inl ?_))
      show sm.state.events.length ≠ cal'.events.length
      rw [h, hcal]
      simp
  | update eventId p =>
    simp only [applyOp, StateManager.updateEvent, sync_skip sm true h]
    cases hq : sm.calendar.updateEvent eventId p with
    | none => exact h
    | some q =>
      obtain ⟨cal', ev⟩ := q
      exact sync_inv_cases _ false true (Or.inr (Or.inr rfl))
  | delete eventId =>
    simp only [applyOp, StateManager.deleteEvent, sync_skip sm true h]
    cases hq : sm.calendar.removeEvent eventId with
    | none => exact h
    | some cal' =>
      have hmem : ∃ x ∈ sm.calendar.events, (x.id == eventId) = true := by
        unfold Calendar.removeEvent at hq
        split at hq
        · exact List.any_eq_true.mp (by assumption)
        · exact absurd hq (by simp)
      have hcal : cal'.events =
          sm.calendar.events.filter (fun x => x.id != eventId) := by
        unfold Calendar.removeEvent at hq
        split at hq
        · obtain rfl := Option.some.injEq .. ▸ hq
          rfl
        · exact absurd hq (by simp)
      refine sync_inv_cases _ false false (Or.inr (Or.inl ?_))
      show sm.state.events.length ≠ cal'.events.length
      rw [h, hcal]
      obtain ⟨x, hx, hbeq⟩ := hmem
      have : (sm.calendar.events.filter (fun x => x.id != eventId)).length <
          sm.calendar.events.length := by
        refine List.length_filter_lt_length_iff_exists.mpr ⟨x, hx, ?_⟩
        simp [bne] at hbeq ⊢
        exact hbeq
      omega

theorem mk_inv (cal : Calendar) (view : View) (date : Nat) (cfg : Config) :
    (mkStateManager cal view date cfg).state.events =
      (mkStateManager cal view date cfg).calendar.events := by
  unfold mkStateManager
  apply sync_inv_cases
  by_cases hc : cal.events = []
  · exact Or.inl (by simp [hc])
  · refine Or.inr (Or.inl ?_)
    have : cal.events.length ≠ 0 := by
      simpa using fun hlen => hc (List.length_eq_zero.mp hlen)
    simpa using fun hlen => this hlen.symm

/-! ## Claim C1: mirror consistency -/

/-- C1.  For every sequence of `addEvent`/`updateEvent`/`deleteEvent`
calls on a freshly constructed state store, after each call returns the
set of event ids in the mirrored `state.events` equals the set of event
ids in the engine's own collection (`calendar.getEvents()`). -/
theorem mirror_consistency (cal : Calendar) (view : View) (date : Nat)
    (cfg : Config) (ops : List StoreOp) :
    ∀ sm' ∈ opTrace (mkStateManager cal view date cfg) ops,
      sameIdSet sm'.state.events sm'.calendar.events := by
  have main : ∀ (ops : List StoreOp) (sm : StateManager),
      sm.state.events = sm.calendar.events →
      ∀ sm' ∈ opTrace sm ops, sm'.state.events = sm'.calendar.events := by
    intro ops
    induction ops with
    | nil =>
      intro sm h sm' h'
      simp [opTrace] at h'
    | cons op rest ih =>
      intro sm h sm' h'
      simp only [opTrace, List.mem_cons] at h'
      rcases h' with rfl | h'
      · exact applyOp_inv sm op h
      · exact ih (applyOp sm op) (applyOp_inv sm op h) sm' h'
  intro sm' h'
  have heq := main ops _ (mk_inv cal view date cfg) sm' h'
  intro k
  rw [heq]

/-- C1, witness: one `addEvent` call on a store wrapping an initially
empty engine; the resulting instance is in the trace and its mirror's id
set equals the engine's. -/
theorem mirror_consistency_witness :
    (applyOp (mkStateManager ⟨[]⟩ View.month 0 sampleConfig)
        (StoreOp.add sampleEvent)) ∈
      opTrace (mkStateManager ⟨[]⟩ View.month 0 sampleConfig)
        [StoreOp.add sampleEvent] ∧
    sameIdSet
      (applyOp (mkStateManager ⟨[]⟩ View.month 0 sampleConfig)
        (StoreOp.add sampleEvent)).state.events
      (applyOp (mkStateManager ⟨[]⟩ View.month 0 sampleConfig)
        (StoreOp.add sampleEvent)).calendar.events := by
  refine ⟨?_, mirror_consistency ⟨[]⟩ View.month 0 sampleConfig
    [StoreOp.add sampleEvent] _ ?_⟩ <;> simp [opTrace]

/-! ## Claim C2: forced resync after update -/

theorem find?_update_map (l : List Event) (eventId : Nat) (p : EventPatch) :
    (l.map (fun x => if x.id == eventId then applyPatch x p else x)).find?
        (fun e => e.id == eventId) =
      (l.find? (fun e => e.id == eventId)).map (fun x => applyPatch x p) := by
  induction l with
  | nil => simp
  | cons x t ih =>
    rw [List.map_cons, List.find?_cons, List.find?_cons]
    cases hbeq : x.id == eventId
    · simp only [Bool.false_eq_true, if_false, hbeq]
      simpa using ih
    · simp [applyPatch_id, hbeq]

/-- C2.  When the engine accepts `updateEvent(id, patch)` with a changed
title, the update call succeeds and — because the resync after an update
is forced rather than identity-diff-gated — the mirror equals the
engine's collection afterwards and the mirrored copy of the updated event
carries the new title, even though the id set never changed. -/
theorem update_forced_resync (sm : StateManager) (eventId : Nat)
    (p : EventPatch) (t : String)
    (hinv : sm.state.events = sm.calendar.events)
    (ht : p.title = some t)
    (hid : eventId ∈ idsOf sm.calendar.events) :
    ((sm.updateEvent eventId p).result).isSome = true ∧
    ((sm.updateEvent eventId p).sm).state.events =
      ((sm.updateEvent eventId p).sm).calendar.events ∧
    (((sm.updateEvent eventId p).sm).state.events.find?
        (fun e => e.id == eventId)).map Event.title = some t := by
  obtain ⟨x0, hx0, hxid⟩ := List.mem_map.mp hid
  have hne : sm.calendar.events.find? (fun e => e.id == eventId) ≠ none := by
    intro hnone
    exact absurd (beq_iff_eq.mpr hxid) (List.find?_eq_none.mp hnone x0 hx0)
  obtain ⟨y0, hy0⟩ := Option.ne_none_iff_exists'.mp hne
  have hupd : sm.calendar.updateEvent eventId p =
      some (⟨sm.calendar.events.map
          (fun x => if x.id == eventId then applyPatch x p else x)⟩,
        applyPatch y0 p) := by
    unfold Calendar.updateEvent
    rw [hy0]
  simp only [StateManager.updateEvent, sync_skip sm true hinv, hupd]
  refine ⟨rfl, sync_inv_cases _ false true (Or.inr (Or.inr rfl)), ?_⟩
  have hstate : (((StateManager.syncEventsFromCore
      { sm with calendar := ⟨sm.calendar.events.map
          (fun x => if x.id == eventId then applyPatch x p else x)⟩ }
      false true).1)).state.events =
      sm.calendar.events.map
        (fun x => if x.id == eventId then applyPatch x p else x) := by
    rw [sync_fst]
    simp
  rw [hstate, find?_update_map, hy0]
  simp [applyPatch, ht]

/-- C2, witness: renaming the sample event through `updateEvent` on the
in-sync sample store. -/
theorem update_forced_resync_witness :
    (sampleManager.state.events = sampleManager.calendar.events ∧
      (({ title := some "Renamed" } : EventPatch)).title = some "Renamed" ∧
      1 ∈ idsOf sampleManager.calendar.events) ∧
    (((sampleManager.updateEvent 1 { title := some "Renamed" }).result).isSome = true ∧
      ((sampleManager.updateEvent 1 { title := some "Renamed" }).sm).state.events =
        ((sampleManager.updateEvent 1 { title := some "Renamed" }).sm).calendar.events ∧
      (((sampleManager.updateEvent 1 { title := some "Renamed" }).sm).state.events.find?
          (fun e => e.id == 1)).map Event.title = some "Renamed") :=
  ⟨⟨by decide, rfl, by decide⟩,
    update_forced_resync sampleManager 1 { title := some "Renamed" } "Renamed"
      (by decide) rfl (by decide)⟩

/-! ## Claim C5: engine-rejected mutations are isolated -/

/-- C5.  For each mutation method, when the engine rejects the call the
store returns its failure value (null for add/update, false for delete),
emits exactly one `event:error` notification carrying the action, the
offending payload and an error description, performs no subscriber
notification, and leaves the whole instance — in particular the mirrored
state — untouched.  The embedded methods are total functions, matching
the source's behaviour of never throwing to the caller. -/
theorem rejected_mutation_isolated (sm : StateManager)
    (hinv : sm.state.events = sm.calendar.events) :
    (∀ e, e.id ∈ idsOf sm.calendar.events →
      sm.addEvent e = ⟨sm, none,
        [("event:error",
          BusPayload.errorInfo "add" (ErrPayload.forAdd e) "Failed to add event")],
        []⟩) ∧
    (∀ eventId p, eventId ∉ idsOf sm.calendar.events →
      sm.updateEvent eventId p = ⟨sm, none,
        [("event:error",
          BusPayload.errorInfo "update" (ErrPayload.forUpdate eventId p)
            "Event not found in calendar")],
        []⟩) ∧
    (∀ eventId, eventId ∉ idsOf sm.calendar.events →
      sm.deleteEvent eventId = ⟨sm, false,
        [("event:error",
          BusPayload.errorInfo "delete" (ErrPayload.forDelete eventId)
            "Event not found")],
        []⟩) := by
  refine ⟨?_, ?_, ?_⟩
  · intro e he
    obtain ⟨x, hx, hxid⟩ := List.mem_map.mp he
    have hany : (sm.calendar.events.any fun y => y.id == e.id) = true :=
      List.any_eq_true.mpr ⟨x, hx, by simp [hxid]⟩
    have hrej : sm.calendar.addEvent e = none := by
      unfold Calendar.addEvent
      rw [if_pos hany]
    simp [StateManager.addEvent, hrej]
  · intro eventId p hid
    have hrej : sm.calendar.updateEvent eventId p = none := by
      unfold Calendar.updateEvent
      rw [List.find?_eq_none.mpr]
      intro x hx hbeq
      exact hid (List.mem_map.mpr ⟨x, hx, beq_iff_eq.mp hbeq⟩)
    simp [StateManager.updateEvent, sync_skip sm true hinv, hrej]
  · intro eventId hid
    have hrej : sm.calendar.removeEvent eventId = none := by
      unfold Calendar.removeEvent
      rw [if_neg]
      intro hany
      obtain ⟨x, hx, hbeq⟩ := List.any_eq_true.mp hany
      exact hid (List.mem_map.mpr ⟨x, hx, beq_iff_eq.mp hbeq⟩)
    simp [StateManager.deleteEvent, sync_skip sm true hinv, hrej]

/-- C5, witness: rejected calls against the in-sync sample store — a
duplicate-id add, and an update and a delete naming an absent id. -/
theorem rejected_mutation_isolated_witness :
    (sampleManager.state.events = sampleManager.calendar.events) ∧
    ((∀ e, e.id ∈ idsOf sampleManager.calendar.events →
      sampleManager.addEvent e = ⟨sampleManager, none,
        [("event:error",
          BusPayload.errorInfo "add" (ErrPayload.forAdd e) "Failed to add event")],
        []⟩) ∧
    (∀ eventId p, eventId ∉ idsOf sampleManager.calendar.events →
      sampleManager.updateEvent eventId p = ⟨sampleManager, none,
        [("event:error",
          BusPayload.errorInfo "update" (ErrPayload.forUpdate eventId p)
            "Event not found in calendar")],
        []⟩) ∧
    (∀ eventId, eventId ∉ idsOf sampleManager.calendar.events →
      sampleManager.deleteEvent eventId = ⟨sampleManager, false,
        [("event:error",
          BusPayload.errorInfo "delete" (ErrPayload.forDelete eventId)
            "Event not found")],
        []⟩)) :=
  ⟨by decide, rejected_mutation_isolated sampleManager (by decide)⟩

/-! ## Claim C9: what the change notifications carry

The claim states that every change notification — direct subscriber
callbacks, every per-key `state:<key>:changed` topic, and the aggregate
`state:changed` topic — carries both the previous and the next full state
snapshot.  The code's per-key payload is
`\x7b oldValue, newValue, state \x7d`: the changed key's old and new
values plus the next snapshot only, with no previous snapshot.  The
direct callbacks (called with `(newState, oldState)`) and the aggregate
payload (`\x7b oldState, newState, changedKeys \x7d`) do carry both. -/

/-- C9, counterexample: a concrete non-silent view change.  The first
notification published is the `state:view:changed` per-key topic, and its
payload does not carry the previous full snapshot, refuting the claim as
stated. -/
theorem per_key_notification_lacks_old_snapshot :
    ((StateManager.setState ⟨⟨[]⟩, sampleState, [0]⟩
        { view := some View.week } false).2.1).head? =
      some ("state:view:changed",
        BusPayload.keyChanged StateKey.view (StateVal.ofView View.month)
          (StateVal.ofView View.week)
          (applyUpdates sampleState { view := some View.week })) ∧
    sampleState ∉ fullSnapshots
      (BusPayload.keyChanged StateKey.view (StateVal.ofView View.month)
        (StateVal.ofView View.week)
        (applyUpdates sampleState { view := some View.week })) := by
  decide

/-- C9, amended.  For every non-silent state transition that changes at
least one key: every direct subscriber callback receives both the next
and the previous full snapshot; the aggregate `state:changed` emission
carries both full snapshots; and each per-key `state:<key>:changed`
emission carries that key's previous and next values together with the
next full snapshot (but not the previous one). -/
theorem change_notification_snapshots (sm : StateManager) (u : StateUpdate)
    (hch : changedKeys sm.state (applyUpdates sm.state u) ≠ []) :
    (∀ c ∈ (sm.setState u false).2.2,
      c.2.newState = applyUpdates sm.state u ∧ c.2.oldState = sm.state) ∧
    (("state:changed",
        BusPayload.stateChanged sm.state (applyUpdates sm.state u)
          (changedKeys sm.state (applyUpdates sm.state u))) ∈
        (sm.setState u false).2.1 ∧
      sm.state ∈ fullSnapshots
        (BusPayload.stateChanged sm.state (applyUpdates sm.state u)
          (changedKeys sm.state (applyUpdates sm.state u))) ∧
      applyUpdates sm.state u ∈ fullSnapshots
        (BusPayload.stateChanged sm.state (applyUpdates sm.state u)
          (changedKeys sm.state (applyUpdates sm.state u)))) ∧
    (∀ k ∈ changedKeys sm.state (applyUpdates sm.state u),
      (keyTopic k,
        BusPayload.keyChanged k (sm.state.get k)
          ((applyUpdates sm.state u).get k) (applyUpdates sm.state u)) ∈
        (sm.setState u false).2.1 ∧
      applyUpdates sm.state u ∈ fullSnapshots
        (BusPayload.keyChanged k (sm.state.get k)
          ((applyUpdates sm.state u).get k) (applyUpdates sm.state u))) := by
  refine ⟨?_, ⟨?_, ?_, ?_⟩, ?_⟩
  · intro c hc
    simp only [StateManager.setState, if_neg (by simp : ¬false = true),
      notifySubscribers] at hc
    obtain ⟨h, _, rfl⟩ := List.mem_map.mp hc
    exact ⟨rfl, rfl⟩
  · simp only [StateManager.setState, if_neg (by simp : ¬false = true),
      emitStateChange]
    refine List.mem_append.mpr (Or.inr ?_)
    rw [if_neg (by simpa [List.isEmpty_iff] using hch)]
    exact List.mem_singleton.mpr rfl
  · simp [fullSnapshots]
  · simp [fullSnapshots]
  · intro k hk
    refine ⟨?_, by simp [fullSnapshots]⟩
    simp only [StateManager.setState, if_neg (by simp : ¬false = true),
      emitStateChange]
    exact List.mem_append.mpr (Or.inl (List.mem_map.mpr ⟨k, hk, rfl⟩))

/-- C9, amended, witness: the concrete view change used in the
counterexample has a nonempty changed-key set, and the amended theorem
applies to it. -/
theorem change_notification_snapshots_witness :
    (changedKeys sampleState
        (applyUpdates sampleState { view := some View.week }) ≠ []) ∧
    ((∀ c ∈ (StateManager.setState ⟨⟨[]⟩, sampleState, [0]⟩
          { view := some View.week } false).2.2,
        c.2.newState = applyUpdates sampleState { view := some View.week } ∧
          c.2.oldState = sampleState) ∧
      (("state:changed",
          BusPayload.stateChanged sampleState
            (applyUpdates sampleState { view := some View.week })
            (changedKeys sampleState
              (applyUpdates sampleState { view := some View.week }))) ∈
          (StateManager.setState ⟨⟨[]⟩, sampleState, [0]⟩
            { view := some View.week } false).2.1 ∧
        sampleState ∈ fullSnapshots
          (BusPayload.stateChanged sampleState
            (applyUpdates sampleState { view := some View.week })
            (changedKeys sampleState
              (applyUpdates sampleState { view := some View.week }))) ∧
        applyUpdates sampleState { view := some View.week } ∈ fullSnapshots
          (BusPayload.stateChanged sampleState
            (applyUpdates sampleState { view := some View.week })
            (changedKeys sampleState
              (applyUpdates sampleState { view := some View.week })))) ∧
      (∀ k ∈ changedKeys sampleState
          (applyUpdates sampleState { view := some View.week }),
        (keyTopic k,
          BusPayload.keyChanged k (sampleState.get k)
            ((applyUpdates sampleState { view := some View.week }).get k)
            (applyUpdates sampleState { view := some View.week })) ∈
          (StateManager.setState ⟨⟨[]⟩, sampleState, [0]⟩
            { view := some View.week } false).2.1 ∧
        applyUpdates sampleState { view := some View.week } ∈ fullSnapshots
          (BusPayload.keyChanged k (sampleState.get k)
            ((applyUpdates sampleState { view := some View.week }).get k)
            (applyUpdates sampleState { view := some View.week })))) :=
  ⟨by decide,
    change_notification_snapshots ⟨⟨[]⟩, sampleState, [0]⟩
      { view := some View.week } (by decide)⟩

/-! ## Event bus lemmas -/

theorem mem_setAssoc {κ α : Type} [DecidableEq κ] (m : List (κ × α)) (k : κ)
    (v : α) (x : κ × α) (h : x ∈ setAssoc m k v) : x = (k, v) ∨ x ∈ m := by
  induction m with
  | nil => simpa [setAssoc] using h
  | cons p t ih =>
    obtain ⟨k0, v0⟩ := p
    simp only [setAssoc] at h
    by_cases h0 : k0 = k
    · rw [if_pos h0] at h
      rcases List.mem_cons.mp h with rfl | hm
      · exact Or.inl rfl
      · exact Or.inr (List.mem_cons_of_mem _ hm)
    · rw [if_neg h0] at h
      rcases List.mem_cons.mp h with rfl | hm
      · exact Or.inr (List.mem_cons_self _ _)
      · rcases ih hm with h' | h'
        · exact Or.inl h'
        · exact Or.inr (List.mem_cons_of_mem _ h')

theorem lookupAssoc_mem {κ α : Type} [DecidableEq κ] (m : List (κ × α))
    (k : κ) (v : α) (h : lookupAssoc m k = some v) : ∃ k', (k', v) ∈ m := by
  unfold lookupAssoc at h
  cases hf : m.find? (fun p => decide (p.1 = k)) with
  | none => rw [hf] at h; simp at h
  | some p =>
    rw [hf] at h
    simp only [Option.map_some', Option.some.injEq] at h
    refine ⟨p.1, ?_⟩
    have hp := List.mem_of_find?_eq_some hf
    rwa [← h, Prod.mk.eta]

theorem priorityOrder_trans (a b c : Subscription) (hab : priorityOrder a b)
    (hbc : priorityOrder b c) : priorityOrder a c := by
  rcases hab with h1 | ⟨h1, h1'⟩ <;> rcases hbc with h2 | ⟨h2, h2'⟩
  · exact Or.inl (h2.trans h1)
  · exact Or.inl (h2 ▸ h1)
  · exact Or.inl (lt_of_lt_of_le h2 (le_of_eq h1.symm))
  · exact Or.inr ⟨h1.trans h2, h1'.trans h2'⟩

theorem subLtB_order (a b : Subscription) (h : subLtB a b = true) :
    priorityOrder a b :=
  Or.inl (of_decide_eq_true h)

/-- The registration replay keeps every stored exact-topic handler list
sorted by the delivery-order relation and every stored registration index
below the running counter, and keeps the wildcard list in strictly
increasing registration order. -/
theorem applyRegs_inv (regs : List Registration) (bus : EventBus) (n : Nat)
    (hex : ∀ p ∈ bus.events, List.Pairwise priorityOrder p.2 ∧ ∀ s ∈ p.2, s.idx < n)
    (hwp : List.Pairwise (fun a b => a.idx < b.idx) bus.wildcardHandlers)
    (hwb : ∀ s ∈ bus.wildcardHandlers, s.idx < n) :
    (∀ p ∈ (applyRegs bus n regs).events, List.Pairwise priorityOrder p.2) ∧
      List.Pairwise (fun a b => a.idx < b.idx)
        (applyRegs bus n regs).wildcardHandlers := by
  induction regs generalizing bus n with
  | nil => exact ⟨fun p hp => (hex p hp).1, hwp⟩
  | cons r rest ih =>
    simp only [applyRegs]
    set sub : Subscription := ⟨r.handler, r.once, r.priority, n⟩ with hsub
    unfold EventBus.on
    by_cases hstar : hasStar r.eventName
    · rw [if_pos hstar]
      refine ih _ (n + 1) ?_ ?_ ?_
      · intro p hp
        exact ⟨(hex p hp).1, fun s hs => Nat.lt_succ_of_lt ((hex p hp).2 s hs)⟩
      · refine List.pairwise_append.mpr ⟨hwp, List.pairwise_singleton _ _, ?_⟩
        intro a ha b hb
        rw [List.mem_singleton.mp hb]
        exact hwb a ha
      · intro s hs
        rcases List.mem_append.mp hs with hs | hs
        · exact Nat.lt_succ_of_lt (hwb s hs)
        · rw [List.mem_singleton.mp hs]
          exact Nat.lt_succ_self n
    · rw [if_neg hstar]
      have hhandlers : List.Pairwise priorityOrder
            ((lookupAssoc bus.events r.eventName).getD []) ∧
          ∀ s ∈ (lookupAssoc bus.events r.eventName).getD [], s.idx < n := by
        cases hl : lookupAssoc bus.events r.eventName with
        | none => simp
        | some subs =>
          obtain ⟨k', hk'⟩ := lookupAssoc_mem _ _ _ hl
          simpa using hex (k', subs) hk'
      refine ih _ (n + 1) ?_ ?_ ?_
      · intro p hp
        rcases mem_setAssoc _ _ _ _ hp with rfl | hp'
        · constructor
          · refine pairwise_sortByKeep priorityOrder_trans subLtB_order _ ?_
            refine List.pairwise_append.mpr ⟨?_, List.pairwise_singleton _ _, ?_⟩
            · exact List.Pairwise.imp (fun hab => fun _ => hab) hhandlers.1
            · intro a ha b hb hkeep
              rw [List.mem_singleton.mp hb] at hkeep ⊢
              have hle : ¬ a.priority < sub.priority := of_decide_eq_false hkeep
              rcases lt_or_eq_of_le (not_lt.mp hle) with hlt | heq
              · exact Or.inl hlt
              · exact Or.inr ⟨heq.symm, hhandlers.2 a ha⟩
          · intro s hs
            have hs' := (mem_sortByKeep _ _ _).mp hs
            rcases List.mem_append.mp hs' with hs'' | hs''
            · exact Nat.lt_succ_of_lt (hhandlers.2 s hs'')
            · rw [List.mem_singleton.mp hs'']
              exact Nat.lt_succ_self n
        · exact ⟨(hex p hp').1, fun s hs => Nat.lt_succ_of_lt ((hex p hp').2 s hs)⟩
      · exact hwp
      · exact fun s hs => Nat.lt_succ_of_lt (hwb s hs)

theorem mkBus_exact_sorted (regs : List Registration) (topic : String) :
    List.Pairwise priorityOrder (exactCalls (mkBus regs) topic) := by
  have hinv := applyRegs_inv regs ⟨[], []⟩ 0 (by simp) (by simp) (by simp)
  unfold exactCalls mkBus
  cases hl : lookupAssoc (applyRegs ⟨[], []⟩ 0 regs).events topic with
  | none => simp
  | some subs =>
    obtain ⟨k', hk'⟩ := lookupAssoc_mem _ _ _ hl
    simpa using hinv.1 (k', subs) hk'

theorem mkBus_wildcard_ordered (regs : List Registration) (topic : String) :
    List.Pairwise (fun a b => a.idx < b.idx) (wildcardCalls (mkBus regs) topic) := by
  have hinv := applyRegs_inv regs ⟨[], []⟩ 0 (by simp) (by simp) (by simp)
  exact hinv.2.filter _

theorem deliverLoop_catching (behaviour : Nat → Bool) (l : List Nat) :
    deliverLoop true behaviour l = (l, false) := by
  induction l with
  | nil => rfl
  | cons h t ih => simp [deliverLoop, ih]

/-! ## Claim C6: delivery order of emit -/

/-- C6.  For every bus built by a sequence of `on` registrations and every
`emit`: the invocation sequence is exactly the matching exact-topic
handlers followed by the matching wildcard handlers (so every exact
handler precedes every wildcard handler); the exact-topic part is ordered
by descending priority with ties in registration order; and the wildcard
part is in registration order. -/
theorem emit_delivery_order (regs : List Registration) (topic : String)
    (behaviour : Nat → Bool) :
    (emitRun behaviour (mkBus regs) topic).1 =
      (exactCalls (mkBus regs) topic).map Subscription.handler ++
        (wildcardCalls (mkBus regs) topic).map WildcardSub.handler ∧
    List.Pairwise priorityOrder (exactCalls (mkBus regs) topic) ∧
    List.Pairwise (fun a b => a.idx < b.idx)
      (wildcardCalls (mkBus regs) topic) := by
  refine ⟨?_, mkBus_exact_sorted regs topic, mkBus_wildcard_ordered regs topic⟩
  unfold emitRun
  rw [deliverLoop_catching]

/-! ## Claim C7: handler faults are isolated -/

/-- C7.  For every bus state, payload behaviour and topic: no exception a
handler raises ever escapes `emit` (the per-invocation try/catch), and the
invocation sequence is the full matching-handler sequence regardless of
which handlers raise — a fault never stops delivery.  In particular, on
the concrete bus with a throwing handler 0 registered on the wildcard
pattern `event:*` and handler 1 registered exactly on `event:add`,
emitting `event:add` still invokes handler 1. -/
theorem handler_fault_isolated (bus : EventBus) (behaviour : Nat → Bool)
    (topic : String) :
    (emitRun behaviour bus topic).2 = false ∧
    (emitRun behaviour bus topic).1 =
      (exactCalls bus topic).map Subscription.handler ++
        (wildcardCalls bus topic).map WildcardSub.handler ∧
    1 ∈ (emitRun (fun h => h == 0)
        (mkBus [⟨"event:*", 0, false, 0⟩, ⟨"event:add", 1, false, 0⟩])
        "event:add").1 := by
  refine ⟨?_, ?_, ?_⟩
  · unfold emitRun
    rw [deliverLoop_catching]
  · unfold emitRun
    rw [deliverLoop_catching]
  · decide

/-! ## Overlap layout: lemmas about the greedy column assignment -/

theorem getD_set_self (cols : List Nat) (i v : Nat) (h : i < cols.length) :
    (cols.set i v).getD i 0 = v := by
  simp [List.getD_eq_getElem?_getD, List.getElem?_set_self h]

theorem getD_set_ne (cols : List Nat) (i v j : Nat) (h : i ≠ j) :
    (cols.set i v).getD j 0 = cols.getD j 0 := by
  simp [List.getD_eq_getElem?_getD, List.getElem?_set_ne h]

theorem getD_append_left (cols : List Nat) (v j : Nat) (h : j < cols.length) :
    (cols ++ [v]).getD j 0 = cols.getD j 0 := by
  simp [List.getD_eq_getElem?_getD, List.getElem?_append, h]

theorem getD_append_last (cols : List Nat) (v : Nat) :
    (cols ++ [v]).getD cols.length 0 = v := by
  simp [List.getD_eq_getElem?_getD, List.getElem?_concat_length]

theorem findCol_some_le (cols : List Nat) (s i : Nat)
    (h : findCol cols s = some i) : i < cols.length ∧ cols.getD i 0 ≤ s := by
  unfold findCol at h
  obtain ⟨hlen, hp, _⟩ := List.findIdx?_eq_some_iff_getElem.mp h
  refine ⟨hlen, ?_⟩
  have := of_decide_eq_true hp
  simpa [List.getD_eq_getElem?_getD, List.getElem?_eq_getElem hlen] using this

theorem assignLoop_lookup_untouched (l : List Entry) (cols : List Nat)
    (ly : List (Nat × LayoutEntry)) (k : Nat) (hk : k ∉ entryIds l) :
    lookupAssoc ((assignLoop l cols ly).1) k = lookupAssoc ly k := by
  induction l generalizing cols ly with
  | nil => rfl
  | cons e rest ih =>
    simp only [entryIds, List.map_cons, List.mem_cons, not_or] at hk
    have hne : e.id ≠ k := fun h => hk.1 h.symm
    have hrest : k ∉ entryIds rest := by simpa [entryIds] using hk.2
    simp only [assignLoop]
    cases hf : findCol cols e.startMin with
    | some i =>
      rw [ih _ _ hrest, lookupAssoc_setAssoc_ne _ _ _ _ hne]
    | none =>
      rw [ih _ _ hrest, lookupAssoc_setAssoc_ne _ _ _ _ hne]

theorem assignLoop_lookup_head (e : Entry) (rest : List Entry)
    (cols : List Nat) (ly : List (Nat × LayoutEntry))
    (hk : e.id ∉ entryIds rest) :
    lookupAssoc ((assignLoop (e :: rest) cols ly).1) e.id =
      some ⟨(findCol cols e.startMin).getD cols.length, 0⟩ := by
  simp only [assignLoop]
  cases hf : findCol cols e.startMin with
  | some i =>
    rw [assignLoop_lookup_untouched _ _ _ _ hk, lookupAssoc_setAssoc_self]
    rfl
  | none =>
    rw [assignLoop_lookup_untouched _ _ _ _ hk, lookupAssoc_setAssoc_self]
    rfl

theorem assignLoop_cols_mono (l : List Entry) (cols : List Nat)
    (ly : List (Nat × LayoutEntry)) (hw : ∀ e ∈ l, e.startMin < e.endMin)
    (i : Nat) (hi : i < cols.length) :
    i < ((assignLoop l cols ly).2).length ∧
      cols.getD i 0 ≤ ((assignLoop l cols ly).2).getD i 0 := by
  induction l generalizing cols ly with
  | nil => exact ⟨hi, le_refl _⟩
  | cons e rest ih =>
    have hwr : ∀ x ∈ rest, x.startMin < x.endMin :=
      fun x hx => hw x (List.mem_cons_of_mem e hx)
    simp only [assignLoop]
    cases hf : findCol cols e.startMin with
    | some j =>
      obtain ⟨hjlen, hjle⟩ := findCol_some_le cols e.startMin j hf
      have hstep : cols.getD i 0 ≤ (cols.set j e.endMin).getD i 0 := by
        by_cases hij : i = j
        · subst hij
          rw [getD_set_self cols i e.endMin hi]
          exact le_of_lt (lt_of_le_of_lt hjle
            (hw e (List.mem_cons_self e rest)))
        · rw [getD_set_ne cols j e.endMin i (fun h => hij h.symm)]
      have hrec := ih (cols.set j e.endMin) (setAssoc ly e.id ⟨j, 0⟩) hwr
        (by simpa using hi)
      exact ⟨hrec.1, le_trans hstep hrec.2⟩
    | none =>
      have hstep : cols.getD i 0 ≤ (cols ++ [e.endMin]).getD i 0 :=
        le_of_eq (getD_append_left cols e.endMin i hi).symm
      have hrec := ih (cols ++ [e.endMin]) (setAssoc ly e.id ⟨cols.length, 0⟩)
        hwr (by simp; omega)
      exact ⟨hrec.1, le_trans hstep hrec.2⟩

theorem assignLoop_col_lower_bound (l : List Entry) (cols : List Nat)
    (ly : List (Nat × LayoutEntry)) (hnd : (entryIds l).Nodup)
    (hw : ∀ e ∈ l, e.startMin < e.endMin) (f : Entry) (hf : f ∈ l)
    (i : Nat) (hi : i < cols.length)
    (hcol : (lookupEntry ((assignLoop l cols ly).1) f.id).column = i) :
    cols.getD i 0 ≤ f.startMin := by
  induction l generalizing cols ly with
  | nil => cases hf
  | cons e rest ih =>
    simp only [entryIds, List.map_cons, List.nodup_cons] at hnd
    have hnotin : e.id ∉ entryIds rest := by simpa [entryIds] using hnd.1
    have hndr : (entryIds rest).Nodup := by simpa [entryIds] using hnd.2
    have hwr : ∀ x ∈ rest, x.startMin < x.endMin :=
      fun x hx => hw x (List.mem_cons_of_mem e hx)
    rcases List.mem_cons.mp hf with rfl | hfr
    · -- `f` is the head: its column is the placement column
      rw [lookupEntry, assignLoop_lookup_head f rest cols ly hnotin] at hcol
      cases hfc : findCol cols f.startMin with
      | some j =>
        rw [hfc] at hcol
        simp only [Option.getD_some] at hcol
        obtain ⟨hjlen, hjle⟩ := findCol_some_le cols f.startMin j hfc
        subst hcol
        exact hjle
      | none =>
        rw [hfc] at hcol
        simp only [Option.getD_none] at hcol
        subst hcol
        exact absurd hi (lt_irrefl _)
    · -- `f` is placed later: use monotonicity of the column state
      simp only [assignLoop] at hcol ⊢
      cases hfc : findCol cols e.startMin with
      | some j =>
        rw [hfc] at hcol
        obtain ⟨hjlen, hjle⟩ := findCol_some_le cols e.startMin j hfc
        have hstep : cols.getD i 0 ≤ (cols.set j e.endMin).getD i 0 := by
          by_cases hij : i = j
          · subst hij
            rw [getD_set_self cols i e.endMin hi]
            exact le_of_lt (lt_of_le_of_lt hjle (hw e (List.mem_cons_self e rest)))
          · rw [getD_set_ne cols j e.endMin i (fun h => hij h.symm)]
        exact le_trans hstep
          (ih (cols.set j e.endMin) (setAssoc ly e.id ⟨j, 0⟩) hndr hwr hfr
            (by simpa using hi) hcol)
      | none =>
        rw [hfc] at hcol
        have hstep : cols.getD i 0 ≤ (cols ++ [e.endMin]).getD i 0 :=
          le_of_eq (getD_append_left cols e.endMin i hi).symm
        exact le_trans hstep
          (ih (cols ++ [e.endMin]) (setAssoc ly e.id ⟨cols.length, 0⟩) hndr hwr
            hfr (by simp; omega) hcol)

/-- Two entries of the assignment input that received the same column do
not overlap: the greedy loop only reuses a column whose
last-occupied-until value is at most the incoming start. -/
theorem assignLoop_same_col_no_overlap (l : List Entry) (cols : List Nat)
    (ly : List (Nat × LayoutEntry)) (hnd : (entryIds l).Nodup)
    (hw : ∀ e ∈ l, e.startMin < e.endMin) :
    ∀ e ∈ l, ∀ f ∈ l, e.id ≠ f.id →
      (lookupEntry ((assignLoop l cols ly).1) e.id).column =
        (lookupEntry ((assignLoop l cols ly).1) f.id).column →
      ¬ overlaps e f := by
  induction l generalizing cols ly with
  | nil => intro e he; cases he
  | cons g rest ih =>
    intro e he f hf hne hcol
    simp only [entryIds, List.map_cons, List.nodup_cons] at hnd
    have hnotin : g.id ∉ entryIds rest := by simpa [entryIds] using hnd.1
    have hndr : (entryIds rest).Nodup := by simpa [entryIds] using hnd.2
    have hwr : ∀ x ∈ rest, x.startMin < x.endMin :=
      fun x hx => hw x (List.mem_cons_of_mem g hx)
    -- the head's stored column and the one-step column state
    have hg : lookupAssoc ((assignLoop (g :: rest) cols ly).1) g.id =
        some ⟨(findCol cols g.startMin).getD cols.length, 0⟩ :=
      assignLoop_lookup_head g rest cols ly hnotin
    -- a helper: the head's interval ends before any later entry in the
    -- same column starts
    have key : ∀ f' ∈ rest,
        (lookupEntry ((assignLoop (g :: rest) cols ly).1) f'.id).column =
          (findCol cols g.startMin).getD cols.length →
        g.endMin ≤ f'.startMin := by
      intro f' hf' hcol'
      cases hfc : findCol cols g.startMin with
      | some j =>
        obtain ⟨hjlen, _⟩ := findCol_some_le cols g.startMin j hfc
        rw [hfc] at hcol'
        simp only [Option.getD_some] at hcol'
        have hbound := assignLoop_col_lower_bound rest (cols.set j g.endMin)
          (setAssoc ly g.id ⟨j, 0⟩) hndr hwr f' hf' j (by simpa using hjlen)
          (by simpa only [assignLoop, hfc] using hcol')
        rwa [getD_set_self cols j g.endMin hjlen] at hbound
      | none =>
        rw [hfc] at hcol'
        simp only [Option.getD_none] at hcol'
        have hbound := assignLoop_col_lower_bound rest (cols ++ [g.endMin])
          (setAssoc ly g.id ⟨cols.length, 0⟩) hndr hwr f' hf' cols.length
          (by simp) (by simpa only [assignLoop, hfc] using hcol')
        rwa [getD_append_last cols g.endMin] at hbound
    rcases List.mem_cons.mp he with rfl | her <;>
      rcases List.mem_cons.mp hf with rfl | hfr
    · exact absurd rfl hne
    · -- e is the head, f later: f starts at or after e ends
      have hce : (lookupEntry ((assignLoop (e :: rest) cols ly).1) e.id).column =
          (findCol cols e.startMin).getD cols.length := by
        rw [lookupEntry, hg]
        rfl
      have hlef := key f hfr (by rw [← hcol, hce])
      intro hov
      exact absurd hov.2 (not_lt.mpr hlef)
    · -- f is the head, e later: e starts at or after f ends
      have hcf : (lookupEntry ((assignLoop (f :: rest) cols ly).1) f.id).column =
          (findCol cols f.startMin).getD cols.length := by
        rw [lookupEntry, hg]
        rfl
      have hlee := key e her (by rw [hcol, hcf])
      intro hov
      exact absurd hov.1 (not_lt.mpr hlee)
    · -- both later: the inductive hypothesis applies verbatim
      cases hfc : findCol cols g.startMin with
      | some j =>
        exact ih (cols.set j g.endMin) (setAssoc ly g.id ⟨j, 0⟩) hndr hwr e her
          f hfr hne (by simpa only [assignLoop, hfc] using hcol)
      | none =>
        exact ih (cols ++ [g.endMin]) (setAssoc ly g.id ⟨cols.length, 0⟩) hndr
          hwr e her f hfr hne (by simpa only [assignLoop, hfc] using hcol)

/-! ## Overlap layout: lemmas about the cluster partition -/

theorem pairwise_universal {α : Type} {R : α → α → Prop} (h : ∀ a b, R a b) :
    ∀ l : List α, List.Pairwise R l
  | [] => List.Pairwise.nil
  | x :: t => List.pairwise_cons.mpr ⟨fun y _ => h x y, pairwise_universal h t⟩

theorem entryLtB_le (a b : Entry) (h : entryLtB a b = true) :
    a.startMin ≤ b.startMin := by
  unfold entryLtB at h
  rcases Bool.or_eq_true_iff.mp h with h' | h'
  · exact le_of_lt (of_decide_eq_true h')
  · exact le_of_eq (of_decide_eq_true (Bool.and_eq_true_iff.mp h').1)

theorem sortEntries_sorted (l : List Entry) :
    List.Pairwise (fun a b => a.startMin ≤ b.startMin) (sortEntries l) := by
  refine @pairwise_sortByKeep Entry entryLtB
    (fun a b => a.startMin ≤ b.startMin)
    (fun a b c hab hbc => le_trans hab hbc) entryLtB_le l
    (pairwise_universal ?_ l)
  intro a b h
  unfold entryLtB at h
  rcases Bool.or_eq_false_iff.mp h with ⟨h1, _⟩
  exact not_lt.mp (of_decide_eq_false h1)

theorem sortEntries_perm (l : List Entry) : (sortEntries l).Perm l :=
  sortByKeep_perm entryLtB l

theorem groupLoop_flatten (l : List Entry) (cur : List Entry) (gEnd : Nat) :
    (groupLoop l cur gEnd).flatten = cur ++ l := by
  induction l generalizing cur gEnd with
  | nil =>
    by_cases h : cur.isEmpty
    · simp [groupLoop, h, List.isEmpty_iff.mp h]
    · simp [groupLoop, h]
  | cons e rest ih =>
    simp only [groupLoop]
    by_cases h : (cur.isEmpty || decide (e.startMin < gEnd)) = true
    · rw [if_pos h, ih]
      simp
    · rw [if_neg h]
      simp [ih]

theorem groupLoop_ne_nil (l : List Entry) (cur : List Entry) (gEnd : Nat)
    (hcur : cur ≠ []) : ∀ g ∈ groupLoop l cur gEnd, g ≠ [] := by
  induction l generalizing cur gEnd with
  | nil =>
    intro g hg
    rw [groupLoop, if_neg (by simpa [List.isEmpty_iff] using hcur)] at hg
    rw [List.mem_singleton.mp hg]
    exact hcur
  | cons e rest ih =>
    intro g hg
    simp only [groupLoop] at hg
    by_cases h : (cur.isEmpty || decide (e.startMin < gEnd)) = true
    · rw [if_pos h] at hg
      exact ih (cur ++ [e]) (max gEnd e.endMin) (by simp) g hg
    · rw [if_neg h] at hg
      rcases List.mem_cons.mp hg with rfl | hg'
      · exact hcur
      · exact ih [e] e.endMin (by simp) g hg'

theorem groupEntries_ne_nil (l : List Entry) :
    ∀ g ∈ groupEntries l, g ≠ [] := by
  cases l with
  | nil =>
    intro g hg
    simp [groupEntries, groupLoop] at hg
  | cons e rest =>
    intro g hg
    rw [groupEntries, groupLoop, if_pos (by simp)] at hg
    exact groupLoop_ne_nil rest ([] ++ [e]) (max 0 e.endMin) (by simp) g hg

theorem groupLoop_sep (l : List Entry) (cur : List Entry) (gEnd : Nat)
    (hsort : List.Pairwise (fun a b => a.startMin ≤ b.startMin) l)
    (hcur : ∀ x ∈ cur, x.endMin ≤ gEnd) :
    List.Pairwise (fun g g' => ∀ x ∈ g, ∀ y ∈ g', x.endMin ≤ y.startMin)
      (groupLoop l cur gEnd) := by
  induction l generalizing cur gEnd with
  | nil =>
    by_cases h : cur.isEmpty <;> simp [groupLoop, h]
  | cons e rest ih =>
    obtain ⟨hhead, hrest⟩ := List.pairwise_cons.mp hsort
    simp only [groupLoop]
    by_cases h : (cur.isEmpty || decide (e.startMin < gEnd)) = true
    · rw [if_pos h]
      refine ih _ _ hrest ?_
      intro x hx
      rcases List.mem_append.mp hx with hx' | hx'
      · exact le_trans (hcur x hx') (le_max_left _ _)
      · rw [List.mem_singleton.mp hx']
        exact le_max_right _ _
    · rw [if_neg h]
      have hclose : gEnd ≤ e.startMin := by
        simp only [Bool.or_eq_true, decide_eq_true_eq, not_or] at h
        exact not_lt.mp h.2
      refine List.pairwise_cons.mpr ⟨?_, ih _ _ hrest ?_⟩
      · intro g' hg' x hx y hy
        have hyl : y ∈ e :: rest := by
          have hmem : y ∈ (groupLoop rest [e] e.endMin).flatten :=
            List.mem_flatten.mpr ⟨g', hg', hy⟩
          rw [groupLoop_flatten] at hmem
          simpa using hmem
        have hxe : x.endMin ≤ gEnd := hcur x hx
        rcases List.mem_cons.mp hyl with rfl | hyr
        · exact le_trans hxe hclose
        · exact le_trans hxe (le_trans hclose (hhead y hyr))
      · intro x hx
        rw [List.mem_singleton.mp hx]

theorem overlaps_symm (a b : Entry) (h : overlaps a b) : overlaps b a :=
  ⟨h.2, h.1⟩

theorem connectedIn_symm (S : List Entry) (x y : Entry)
    (h : connectedIn S x y) : connectedIn S y x := by
  refine Relation.ReflTransGen.symmetric ?_ h
  intro a b hab
  exact ⟨hab.2.1, hab.1, overlaps_symm a b hab.2.2⟩

theorem connectedIn_congr (S T : List Entry)
    (hmem : ∀ x, x ∈ S ↔ x ∈ T) (x y : Entry) (h : connectedIn S x y) :
    connectedIn T x y := by
  refine Relation.ReflTransGen.mono ?_ h
  intro a b hab
  exact ⟨(hmem a).mp hab.1, (hmem b).mp hab.2.1, hab.2.2⟩

theorem groupLoop_conn (S : List Entry) (l : List Entry) (cur : List Entry)
    (gEnd : Nat)
    (hS : ∀ y ∈ cur ++ l, y ∈ S)
    (hw : ∀ y ∈ cur ++ l, y.startMin < y.endMin)
    (hsort : List.Pairwise (fun a b => a.startMin ≤ b.startMin) l)
    (hcurso : ∀ x ∈ cur, ∀ y ∈ l, x.startMin ≤ y.startMin)
    (hconn : ∀ x ∈ cur, ∀ y ∈ cur, connectedIn S x y)
    (hend : cur ≠ [] → ∃ m ∈ cur, m.endMin = gEnd)
    (hend0 : cur = [] → gEnd = 0) :
    ∀ g ∈ groupLoop l cur gEnd, ∀ x ∈ g, ∀ y ∈ g, connectedIn S x y := by
  induction l generalizing cur gEnd with
  | nil =>
    intro g hg
    by_cases h : cur.isEmpty
    · rw [groupLoop, if_pos h] at hg
      cases hg
    · rw [groupLoop, if_neg h] at hg
      rw [List.mem_singleton.mp hg]
      exact hconn
  | cons e rest ih =>
    intro g hg
    obtain ⟨hhead, hrest⟩ := List.pairwise_cons.mp hsort
    have heS : e ∈ S := hS e (by simp)
    have hew : e.startMin < e.endMin := hw e (by simp)
    simp only [groupLoop] at hg
    by_cases h : (cur.isEmpty || decide (e.startMin < gEnd)) = true
    · rw [if_pos h] at hg
      -- `e` joins the current group
      have hconn' : ∀ x ∈ cur ++ [e], ∀ y ∈ cur ++ [e], connectedIn S x y := by
        have hce : ∀ x ∈ cur, connectedIn S x e := by
          intro x hx
          have hcne : cur ≠ [] := fun hnil => by simp [hnil] at hx
          have hlt : e.startMin < gEnd := by
            rcases Bool.or_eq_true_iff.mp h with h' | h'
            · exact absurd (List.isEmpty_iff.mp h') hcne
            · exact of_decide_eq_true h'
          obtain ⟨m, hm, hmend⟩ := hend hcne
          have hedge : overlapEdge S m e := by
            refine ⟨hS m (List.mem_append_left _ hm), heS, ?_, ?_⟩
            · exact lt_of_le_of_lt (hcurso m hm e (by simp)) hew
            · rw [hmend]
              exact hlt
          exact (hconn x hx m hm).trans (Relation.ReflTransGen.single hedge)
        intro x hx y hy
        rcases List.mem_append.mp hx with hx' | hx' <;>
          rcases List.mem_append.mp hy with hy' | hy'
        · exact hconn x hx' y hy'
        · rw [List.mem_singleton.mp hy']
          exact hce x hx'
        · rw [List.mem_singleton.mp hx']
          exact connectedIn_symm S y e (hce y hy')
        · rw [List.mem_singleton.mp hx', List.mem_singleton.mp hy']
          exact Relation.ReflTransGen.refl
      refine ih (cur ++ [e]) (max gEnd e.endMin) ?_ ?_ hrest ?_ hconn' ?_ ?_ g hg
      · intro y hy
        rcases List.mem_append.mp hy with hy' | hy'
        · rcases List.mem_append.mp hy' with hy'' | hy''
          · exact hS y (List.mem_append_left _ hy'')
          · rw [List.mem_singleton.mp hy'']
            exact heS
        · exact hS y (List.mem_append_right _ (List.mem_cons_of_mem e hy'))
      · intro y hy
        rcases List.mem_append.mp hy with hy' | hy'
        · rcases List.mem_append.mp hy' with hy'' | hy''
          · exact hw y (List.mem_append_left _ hy'')
          · rw [List.mem_singleton.mp hy'']
            exact hew
        · exact hw y (List.mem_append_right _ (List.mem_cons_of_mem e hy'))
      · intro x hx y hy
        rcases List.mem_append.mp hx with hx' | hx'
        · exact hcurso x hx' y (List.mem_cons_of_mem e hy)
        · rw [List.mem_singleton.mp hx']
          exact hhead y hy
      · intro _
        by_cases hle : gEnd ≤ e.endMin
        · exact ⟨e, List.mem_append_right _ (by simp), (max_eq_right hle).symm⟩
        · have hcne : cur ≠ [] := by
            intro hnil
            rw [hend0 hnil] at hle
            exact hle (Nat.zero_le _)
          obtain ⟨m, hm, hmend⟩ := hend hcne
          exact ⟨m, List.mem_append_left _ hm,
            by rw [hmend, max_eq_left (le_of_not_le hle)]⟩
      · intro hnil
        exact absurd hnil (by simp)
    · rw [if_neg h] at hg
      rcases List.mem_cons.mp hg with rfl | hg'
      · exact hconn
      · refine ih [e] e.endMin ?_ ?_ hrest ?_ ?_ ?_ ?_ g hg'
        · intro y hy
          rcases List.mem_append.mp hy with hy' | hy'
          · rw [List.mem_singleton.mp hy']
            exact heS
          · exact hS y (List.mem_append_right _ (List.mem_cons_of_mem e hy'))
        · intro y hy
          rcases List.mem_append.mp hy with hy' | hy'
          · rw [List.mem_singleton.mp hy']
            exact hew
          · exact hw y (List.mem_append_right _ (List.mem_cons_of_mem e hy'))
        · intro x hx y hy
          rw [List.mem_singleton.mp hx]
          exact hhead y hy
        · intro x hx y hy
          rw [List.mem_singleton.mp hx, List.mem_singleton.mp hy]
          exact Relation.ReflTransGen.refl
        · intro _
          exact ⟨e, by simp⟩
        · intro hnil
          exact absurd hnil (by simp)

theorem groupEntries_conn (S : List Entry) (l : List Entry)
    (hS : ∀ y ∈ l, y ∈ S) (hw : ∀ y ∈ l, y.startMin < y.endMin)
    (hsort : List.Pairwise (fun a b => a.startMin ≤ b.startMin) l) :
    ∀ g ∈ groupEntries l, ∀ x ∈ g, ∀ y ∈ g, connectedIn S x y := by
  refine groupLoop_conn S l [] 0 (by simpa using hS) (by simpa using hw) hsort
    (by simp) (by simp) (fun hc => absurd rfl hc) (fun _ => rfl)

theorem pairwise_mem_or {α : Type} {R : α → α → Prop} (l : List α)
    (hp : List.Pairwise R l) (a b : α) (ha : a ∈ l) (hb : b ∈ l) :
    R a b ∨ R b a ∨ a = b := by
  induction l with
  | nil => cases ha
  | cons h t ih =>
    obtain ⟨hht, hpt⟩ := List.pairwise_cons.mp hp
    rcases List.mem_cons.mp ha with rfl | ha' <;>
      rcases List.mem_cons.mp hb with rfl | hb'
    · exact Or.inr (Or.inr rfl)
    · exact Or.inl (hht b hb')
    · exact Or.inr (Or.inl (hht a ha'))
    · exact ih hpt ha' hb'

/-- A connectivity chain never leaves a group of the partition: the
partition's groups are separated in time, and overlap edges cannot cross
a separation. -/
theorem conn_stays_in_group (l : List Entry) (G : List (List Entry))
    (hflat : G.flatten = l)
    (hsep : List.Pairwise
      (fun g g' => ∀ x ∈ g, ∀ y ∈ g', x.endMin ≤ y.startMin) G)
    (x y : Entry) (hconn : connectedIn l x y) :
    ∀ g ∈ G, x ∈ g → y ∈ g := by
  induction hconn with
  | refl => exact fun g _ hx => hx
  | @tail b c hxb hbc ih =>
    intro g hgG hxg
    have hbg : b ∈ g := ih g hgG hxg
    have hcl : c ∈ l := hbc.2.1
    rw [← hflat] at hcl
    obtain ⟨g', hg'G, hcg'⟩ := List.mem_flatten.mp hcl
    rcases pairwise_mem_or G hsep g g' hgG hg'G with hs | hs | heq
    · exact absurd hbc.2.2.2 (not_lt.mpr (hs b hbg c hcg'))
    · exact absurd hbc.2.2.1 (not_lt.mpr (hs c hcg' b hbg))
    · rw [heq]
      exact hcg'

/-! ## Overlap layout: lemmas about the totalColumns pass -/

theorem lookupAssoc_updateTotal (ly : List (Nat × LayoutEntry)) (k' : Nat)
    (tc : Nat) (k : Nat) :
    lookupAssoc (updateTotal ly k' tc) k =
      if k = k' then (lookupAssoc ly k).map (fun v => ⟨v.column, tc⟩)
      else lookupAssoc ly k := by
  induction ly with
  | nil => by_cases hk : k = k' <;> simp [updateTotal, lookupAssoc_nil, hk]
  | cons p t ih =>
    obtain ⟨k0, v0⟩ := p
    by_cases h0 : k0 = k'
    · subst h0
      by_cases hkk : k0 = k
      · subst hkk
        simp [updateTotal, lookupAssoc_cons]
      · have hk2 : ¬ k = k0 := fun h => hkk h.symm
        simpa [updateTotal, lookupAssoc_cons, hkk, hk2] using ih
    · by_cases hkk : k0 = k
      · subst hkk
        have hk2 : ¬ k0 = k' := h0
        simp [updateTotal, lookupAssoc_cons, h0, hk2]
      · have hk2 : ¬ k = k0 := fun h => hkk h.symm
        simpa [updateTotal, lookupAssoc_cons, h0, hkk, hk2] using ih

theorem lookupEntry_updateTotal_column (ly : List (Nat × LayoutEntry))
    (k' tc k : Nat) :
    (lookupEntry (updateTotal ly k' tc) k).column = (lookupEntry ly k).column := by
  rw [lookupEntry, lookupEntry, lookupAssoc_updateTotal]
  by_cases hk : k = k'
  · rw [if_pos hk]
    cases lookupAssoc ly k <;> rfl
  · rw [if_neg hk]

theorem foldl_updateTotal_untouched (g : List Entry)
    (ly : List (Nat × LayoutEntry)) (tc k : Nat) (hk : ∀ x ∈ g, x.id ≠ k) :
    lookupAssoc (g.foldl (fun acc e => updateTotal acc e.id tc) ly) k =
      lookupAssoc ly k := by
  induction g generalizing ly with
  | nil => rfl
  | cons x t ih =>
    simp only [List.foldl_cons]
    rw [ih _ (fun y hy => hk y (List.mem_cons_of_mem x hy)),
      lookupAssoc_updateTotal,
      if_neg (fun h => hk x (List.mem_cons_self x t) h.symm)]

theorem foldl_updateTotal_column (g : List Entry)
    (ly : List (Nat × LayoutEntry)) (tc k : Nat) :
    (lookupEntry (g.foldl (fun acc e => updateTotal acc e.id tc) ly) k).column =
      (lookupEntry ly k).column := by
  induction g generalizing ly with
  | nil => rfl
  | cons x t ih =>
    simp only [List.foldl_cons]
    rw [ih _, lookupEntry_updateTotal_column]

theorem foldl_updateTotal_mem (g : List Entry)
    (ly : List (Nat × LayoutEntry)) (tc k : Nat) (v : LayoutEntry)
    (hv : lookupAssoc ly k = some v) (hmem : ∃ x ∈ g, x.id = k) :
    lookupAssoc (g.foldl (fun acc e => updateTotal acc e.id tc) ly) k =
      some ⟨v.column, tc⟩ := by
  induction g generalizing ly v with
  | nil =>
    obtain ⟨x, hx, _⟩ := hmem
    cases hx
  | cons x t ih =>
    simp only [List.foldl_cons]
    by_cases hx : x.id = k
    · have hv1 : lookupAssoc (updateTotal ly x.id tc) k = some ⟨v.column, tc⟩ := by
        rw [lookupAssoc_updateTotal, if_pos hx.symm, hv]
        rfl
      by_cases hmt : ∃ y ∈ t, y.id = k
      · exact ih _ ⟨v.column, tc⟩ hv1 hmt
      · rw [foldl_updateTotal_untouched t _ tc k
          (fun y hy h => hmt ⟨y, hy, h⟩), hv1]
    · have hv1 : lookupAssoc (updateTotal ly x.id tc) k = some v := by
        rw [lookupAssoc_updateTotal, if_neg (fun h => hx h.symm), hv]
      obtain ⟨y, hy, hyk⟩ := hmem
      rcases List.mem_cons.mp hy with rfl | hyt
      · exact absurd hyk hx
      · exact ih _ _ hv1 ⟨y, hyt, hyk⟩

theorem groupMaxCol_congr (ly1 ly2 : List (Nat × LayoutEntry))
    (g : List Entry)
    (h : ∀ k, (lookupEntry ly1 k).column = (lookupEntry ly2 k).column) :
    groupMaxCol ly1 g = groupMaxCol ly2 g := by
  unfold groupMaxCol
  congr 1
  exact List.map_congr_left (fun e _ => h e.id)

theorem foldG_untouched (G : List (List Entry))
    (ly : List (Nat × LayoutEntry)) (k : Nat)
    (hk : ∀ g ∈ G, ∀ x ∈ g, x.id ≠ k) :
    lookupAssoc (G.foldl applyGroup ly) k = lookupAssoc ly k := by
  induction G generalizing ly with
  | nil => rfl
  | cons g0 Grest ih =>
    simp only [List.foldl_cons]
    rw [ih _ (fun g hg x hx => hk g (List.mem_cons_of_mem g0 hg) x hx)]
    exact foldl_updateTotal_untouched g0 ly _ k
      (fun x hx => hk g0 (List.mem_cons_self g0 Grest) x hx)

theorem foldG_column (G : List (List Entry)) (ly : List (Nat × LayoutEntry))
    (k : Nat) :
    (lookupEntry (G.foldl applyGroup ly) k).column = (lookupEntry ly k).column := by
  induction G generalizing ly with
  | nil => rfl
  | cons g0 Grest ih =>
    simp only [List.foldl_cons]
    rw [ih _]
    exact foldl_updateTotal_column g0 ly _ k

theorem foldG_lookup (G : List (List Entry)) (ly : List (Nat × LayoutEntry))
    (e : Entry) (g : List Entry) (hg : g ∈ G) (he : e ∈ g) (v : LayoutEntry)
    (hv : lookupAssoc ly e.id = some v)
    (hdisj : List.Pairwise (fun g1 g2 => ∀ x ∈ g1, ∀ y ∈ g2, x.id ≠ y.id) G) :
    lookupAssoc (G.foldl applyGroup ly) e.id =
      some ⟨v.column, groupMaxCol ly g + 1⟩ := by
  induction G generalizing ly v with
  | nil => cases hg
  | cons g0 Grest ih =>
    obtain ⟨hd0, hdrest⟩ := List.pairwise_cons.mp hdisj
    simp only [List.foldl_cons]
    rcases List.mem_cons.mp hg with rfl | hgr
    · have h1 : lookupAssoc (applyGroup ly g) e.id =
          some ⟨v.column, groupMaxCol ly g + 1⟩ :=
        foldl_updateTotal_mem g ly _ e.id v hv ⟨e, he, rfl⟩
      rw [foldG_untouched Grest _ e.id ?_, h1]
      intro g2 hg2 y hy h
      exact hd0 g2 hg2 e he y hy h.symm
    · have hexists : ∃ t', lookupAssoc (applyGroup ly g0) e.id =
          some ⟨v.column, t'⟩ := by
        by_cases hm : ∃ x ∈ g0, x.id = e.id
        · exact ⟨groupMaxCol ly g0 + 1,
            foldl_updateTotal_mem g0 ly _ e.id v hv hm⟩
        · refine ⟨v.totalColumns, ?_⟩
          simp only [applyGroup]
          rw [foldl_updateTotal_untouched g0 ly _ e.id
            (fun x hx h => hm ⟨x, hx, h⟩), hv]
      obtain ⟨t', hv'⟩ := hexists
      rw [ih _ hgr _ hv' hdrest]
      have hcols : ∀ k, (lookupEntry (applyGroup ly g0) k).column =
          (lookupEntry ly k).column :=
        fun k => foldl_updateTotal_column g0 ly _ k
      rw [groupMaxCol_congr _ _ g hcols]

/-! ## Overlap layout: assembling the end-to-end characterisation -/

theorem assignLoop_lookup_isSome (l : List Entry) (cols : List Nat)
    (ly : List (Nat × LayoutEntry)) (hnd : (entryIds l).Nodup) (e : Entry)
    (he : e ∈ l) :
    ∃ c, lookupAssoc ((assignLoop l cols ly).1) e.id = some ⟨c, 0⟩ := by
  induction l generalizing cols ly with
  | nil => cases he
  | cons g rest ih =>
    simp only [entryIds, List.map_cons, List.nodup_cons] at hnd
    rcases List.mem_cons.mp he with rfl | her
    · exact ⟨_, assignLoop_lookup_head e rest cols ly
        (by simpa [entryIds] using hnd.1)⟩
    · simp only [assignLoop]
      cases hf : findCol cols g.startMin with
      | some i => exact ih _ _ (by simpa [entryIds] using hnd.2) her
      | none => exact ih _ _ (by simpa [entryIds] using hnd.2) her

theorem assignLoop_keys (l : List Entry) (cols : List Nat)
    (ly : List (Nat × LayoutEntry)) (k : Nat) :
    k ∈ keysOf ((assignLoop l cols ly).1) ↔
      k ∈ keysOf ly ∨ k ∈ entryIds l := by
  induction l generalizing cols ly with
  | nil => simp [assignLoop, entryIds]
  | cons e rest ih =>
    simp only [assignLoop]
    cases hf : findCol cols e.startMin with
    | some i =>
      rw [ih]
      simp only [mem_keysOf_setAssoc, entryIds, List.map_cons, List.mem_cons]
      tauto
    | none =>
      rw [ih]
      simp only [mem_keysOf_setAssoc, entryIds, List.map_cons, List.mem_cons]
      tauto

theorem assignLoop_keys_nodup (l : List Entry) (cols : List Nat)
    (ly : List (Nat × LayoutEntry)) (h : (keysOf ly).Nodup) :
    (keysOf ((assignLoop l cols ly).1)).Nodup := by
  induction l generalizing cols ly with
  | nil => exact h
  | cons e rest ih =>
    simp only [assignLoop]
    cases hf : findCol cols e.startMin with
    | some i => exact ih _ _ (nodup_keysOf_setAssoc _ _ _ h)
    | none => exact ih _ _ (nodup_keysOf_setAssoc _ _ _ h)

theorem keysOf_updateTotal (ly : List (Nat × LayoutEntry)) (k' tc : Nat) :
    keysOf (updateTotal ly k' tc) = keysOf ly := by
  unfold keysOf updateTotal
  rw [List.map_map]
  refine List.map_congr_left ?_
  intro p _
  by_cases h : p.1 = k' <;> simp [h]

theorem keysOf_foldl_updateTotal (g : List Entry)
    (ly : List (Nat × LayoutEntry)) (tc : Nat) :
    keysOf (g.foldl (fun acc e => updateTotal acc e.id tc) ly) = keysOf ly := by
  induction g generalizing ly with
  | nil => rfl
  | cons x t ih =>
    simp only [List.foldl_cons]
    rw [ih, keysOf_updateTotal]

theorem keysOf_foldG (G : List (List Entry)) (ly : List (Nat × LayoutEntry)) :
    keysOf (G.foldl applyGroup ly) = keysOf ly := by
  induction G generalizing ly with
  | nil => rfl
  | cons g0 Grest ih =>
    simp only [List.foldl_cons]
    rw [ih]
    exact keysOf_foldl_updateTotal g0 ly _

theorem nodup_flatten_pairwise_disjoint (G : List (List Entry))
    (hnd : (entryIds G.flatten).Nodup) :
    List.Pairwise (fun g1 g2 => ∀ x ∈ g1, ∀ y ∈ g2, x.id ≠ y.id) G := by
  induction G with
  | nil => exact List.Pairwise.nil
  | cons g0 Grest ih =>
    rw [List.flatten_cons] at hnd
    simp only [entryIds, List.map_append] at hnd
    rw [List.nodup_append] at hnd
    obtain ⟨h1, h2, hdisj⟩ := hnd
    refine List.pairwise_cons.mpr ⟨?_, ih (by simpa [entryIds] using h2)⟩
    intro g2 hg2 x hx y hy hxy
    refine hdisj (List.mem_map_of_mem Entry.id hx) ?_
    rw [hxy]
    exact List.mem_map_of_mem Entry.id (List.mem_flatten.mpr ⟨g2, hg2, hy⟩)

theorem foldl_max_le_init (l : List Nat) (a : Nat) : a ≤ l.foldl max a := by
  induction l generalizing a with
  | nil => exact le_refl a
  | cons x t ih => exact le_trans (le_max_left a x) (ih (max a x))

theorem le_foldl_max (l : List Nat) (a x : Nat) (hx : x ∈ l) :
    x ≤ l.foldl max a := by
  induction l generalizing a with
  | nil => cases hx
  | cons y t ih =>
    rcases List.mem_cons.mp hx with rfl | hxt
    · exact le_trans (le_max_right a x) (foldl_max_le_init t (max a x))
    · exact ih (max a y) hxt

theorem foldl_max_cases (l : List Nat) (a : Nat) :
    l.foldl max a = a ∨ l.foldl max a ∈ l := by
  induction l generalizing a with
  | nil => exact Or.inl rfl
  | cons x t ih =>
    rcases ih (max a x) with h | h
    · rcases max_choice a x with hm | hm
      · exact Or.inl (by rw [List.foldl_cons, h, hm])
      · refine Or.inr ?_
        rw [List.foldl_cons, h, hm]
        exact List.mem_cons_self x t
    · exact Or.inr (List.mem_cons_of_mem x h)

theorem entryIds_toEntry (events : List TimedEvent) :
    entryIds (events.map toEntry) = events.map TimedEvent.id := by
  simp only [entryIds, List.map_map]
  rfl

theorem toEntry_widened (events : List TimedEvent) :
    ∀ e ∈ events.map toEntry, e.startMin < e.endMin := by
  intro e he
  obtain ⟨a, _, rfl⟩ := List.mem_map.mp he
  exact lt_of_lt_of_le (Nat.lt_succ_self a.startMin) (le_max_left _ _)

theorem sorted_entryIds_nodup (events : List TimedEvent)
    (hnd : (events.map TimedEvent.id).Nodup) :
    (entryIds (sortEntries (events.map toEntry))).Nodup := by
  have hperm : (entryIds (sortEntries (events.map toEntry))).Perm
      (entryIds (events.map toEntry)) :=
    (sortEntries_perm (events.map toEntry)).map Entry.id
  rw [hperm.nodup_iff, entryIds_toEntry]
  exact hnd

theorem computeOverlapLayout_eq (events : List TimedEvent)
    (h : events ≠ []) :
    computeOverlapLayout events =
      (groupEntries (sortEntries (events.map toEntry))).foldl applyGroup
        ((assignLoop (sortEntries (events.map toEntry)) [] []).1) := by
  rw [computeOverlapLayout,
    if_neg (by simpa [List.isEmpty_iff] using h)]

theorem groupEntries_flatten (l : List Entry) :
    (groupEntries l).flatten = l := by
  rw [groupEntries, groupLoop_flatten]
  rfl

/-- The end-to-end characterisation of one stored layout entry: it sits
in some cluster `g` of the partition, its column is the greedy-assignment
column, and its `totalColumns` is the maximum column of `g` plus one. -/
theorem computeOverlapLayout_lookup (events : List TimedEvent)
    (hnd : (events.map TimedEvent.id).Nodup) (e : Entry)
    (he : e ∈ sortEntries (events.map toEntry)) :
    ∃ g ∈ groupEntries (sortEntries (events.map toEntry)), e ∈ g ∧
      lookupAssoc (computeOverlapLayout events) e.id =
        some ⟨(lookupEntry ((assignLoop (sortEntries
            (events.map toEntry)) [] []).1) e.id).column,
          groupMaxCol ((assignLoop (sortEntries
            (events.map toEntry)) [] []).1) g + 1⟩ := by
  have hne : events ≠ [] := by
    intro hnil
    rw [hnil] at he
    cases he
  have hndS := sorted_entryIds_nodup events hnd
  obtain ⟨g, hgG, heg⟩ := List.mem_flatten.mp
    (by rw [groupEntries_flatten]; exact he)
  obtain ⟨c, hc⟩ := assignLoop_lookup_isSome
    (sortEntries (events.map toEntry)) [] [] hndS e he
  have hdisj := nodup_flatten_pairwise_disjoint
    (groupEntries (sortEntries (events.map toEntry)))
    (by rw [groupEntries_flatten]; exact hndS)
  refine ⟨g, hgG, heg, ?_⟩
  rw [computeOverlapLayout_eq events hne,
    foldG_lookup _ _ e g hgG heg ⟨c, 0⟩ hc hdisj]
  rw [lookupEntry, hc]
  rfl

/-! ## Claim C3: correctness of the overlap layout -/

/-- C3.  For every list of timed events (with the data model's unique
ids): (a) two events whose widened half-open minute intervals overlap
never share a column; (b) for every event, every member of its connected
overlap cluster has a column strictly below the event's `totalColumns`,
and some member of the cluster attains `totalColumns - 1` — i.e.
`totalColumns` equals the maximum column used in the cluster plus one,
uniformly across the cluster. -/
theorem overlap_layout_spec (events : List TimedEvent)
    (hnd : (events.map TimedEvent.id).Nodup) :
    (∀ a ∈ events, ∀ b ∈ events, a.id ≠ b.id →
      overlaps (toEntry a) (toEntry b) →
      (lookupEntry (computeOverlapLayout events) a.id).column ≠
        (lookupEntry (computeOverlapLayout events) b.id).column) ∧
    (∀ a ∈ events,
      (∀ b ∈ events,
        connectedIn (events.map toEntry) (toEntry a) (toEntry b) →
        (lookupEntry (computeOverlapLayout events) b.id).column <
          (lookupEntry (computeOverlapLayout events) a.id).totalColumns) ∧
      (∃ b ∈ events,
        connectedIn (events.map toEntry) (toEntry a) (toEntry b) ∧
        (lookupEntry (computeOverlapLayout events) b.id).column + 1 =
          (lookupEntry (computeOverlapLayout events) a.id).totalColumns)) := by
  have hndS := sorted_entryIds_nodup events hnd
  have hmemS : ∀ x : Entry,
      x ∈ sortEntries (events.map toEntry) ↔ x ∈ events.map toEntry :=
    fun x => (sortEntries_perm (events.map toEntry)).mem_iff
  have hwS : ∀ e ∈ sortEntries (events.map toEntry),
      e.startMin < e.endMin :=
    fun e he => toEntry_widened events e ((hmemS e).mp he)
  constructor
  · intro a ha b hb hne hov hcol
    have hne' : events ≠ [] := fun h => by simp [h] at ha
    have hLA : ∀ k, (lookupEntry (computeOverlapLayout events) k).column =
        (lookupEntry ((assignLoop (sortEntries
          (events.map toEntry)) [] []).1) k).column := by
      intro k
      rw [computeOverlapLayout_eq events hne']
      exact foldG_column _ _ k
    have hea : toEntry a ∈ sortEntries (events.map toEntry) :=
      (hmemS _).mpr (List.mem_map_of_mem toEntry ha)
    have heb : toEntry b ∈ sortEntries (events.map toEntry) :=
      (hmemS _).mpr (List.mem_map_of_mem toEntry hb)
    refine assignLoop_same_col_no_overlap (sortEntries (events.map toEntry))
      [] [] hndS hwS (toEntry a) hea (toEntry b) heb hne ?_ hov
    rw [← hLA, ← hLA] at *
    exact hcol
  · intro a ha
    have hne' : events ≠ [] := fun h => by simp [h] at ha
    have hLA : ∀ k, (lookupEntry (computeOverlapLayout events) k).column =
        (lookupEntry ((assignLoop (sortEntries
          (events.map toEntry)) [] []).1) k).column := by
      intro k
      rw [computeOverlapLayout_eq events hne']
      exact foldG_column _ _ k
    have hea : toEntry a ∈ sortEntries (events.map toEntry) :=
      (hmemS _).mpr (List.mem_map_of_mem toEntry ha)
    obtain ⟨g, hgG, heg, hlook⟩ :=
      computeOverlapLayout_lookup events hnd (toEntry a) hea
    have hid : (toEntry a).id = a.id := rfl
    rw [hid] at hlook
    have hLa : lookupEntry (computeOverlapLayout events) a.id =
        ⟨(lookupEntry ((assignLoop (sortEntries
            (events.map toEntry)) [] []).1) (toEntry a).id).column,
          groupMaxCol ((assignLoop (sortEntries
            (events.map toEntry)) [] []).1) g + 1⟩ := by
      rw [lookupEntry, hlook]
      rfl
    have hsep := groupLoop_sep (sortEntries (events.map toEntry)) [] 0
      (sortEntries_sorted _) (by simp)
    constructor
    · intro b hb hconn
      have hconnS : connectedIn (sortEntries (events.map toEntry))
          (toEntry a) (toEntry b) :=
        connectedIn_congr _ _ (fun x => (hmemS x).symm) _ _ hconn
      have hebg : toEntry b ∈ g :=
        conn_stays_in_group (sortEntries (events.map toEntry))
          (groupEntries (sortEntries (events.map toEntry)))
          (groupEntries_flatten _) hsep (toEntry a) (toEntry b) hconnS g hgG heg
      have hcolb : (lookupEntry ((assignLoop (sortEntries
          (events.map toEntry)) [] []).1) b.id).column ≤
          groupMaxCol ((assignLoop (sortEntries
            (events.map toEntry)) [] []).1) g :=
        le_foldl_max _ 0 _ (List.mem_map_of_mem
          (fun e => (lookupEntry ((assignLoop (sortEntries
            (events.map toEntry)) [] []).1) e.id).column) hebg)
      rw [hLa, hLA]
      exact Nat.lt_succ_of_le hcolb
    · have hgne : g ≠ [] :=
        groupEntries_ne_nil (sortEntries (events.map toEntry)) g hgG
      have hattain : ∃ x ∈ g, (lookupEntry ((assignLoop (sortEntries
          (events.map toEntry)) [] []).1) x.id).column =
          groupMaxCol ((assignLoop (sortEntries
            (events.map toEntry)) [] []).1) g := by
        rcases foldl_max_cases (g.map (fun e => (lookupEntry ((assignLoop
          (sortEntries (events.map toEntry)) [] []).1) e.id).column)) 0 with
          h0 | hmem
        · obtain ⟨x, hx⟩ := List.exists_mem_of_ne_nil g hgne
          refine ⟨x, hx, ?_⟩
          have hle := le_foldl_max _ 0 _ (List.mem_map_of_mem
            (fun e => (lookupEntry ((assignLoop (sortEntries
              (events.map toEntry)) [] []).1) e.id).column) hx)
          have hM : groupMaxCol ((assignLoop (sortEntries
              (events.map toEntry)) [] []).1) g = 0 := h0
          rw [hM]
          exact Nat.le_zero.mp (hM ▸ hle)
        · obtain ⟨x, hx, hxe⟩ := List.mem_map.mp hmem
          exact ⟨x, hx, hxe⟩
      obtain ⟨x, hxg, hxcol⟩ := hattain
      have hxS : x ∈ sortEntries (events.map toEntry) := by
        rw [← groupEntries_flatten (sortEntries (events.map toEntry))]
        exact List.mem_flatten.mpr ⟨g, hgG, hxg⟩
      obtain ⟨b, hbev, hbeq⟩ := List.mem_map.mp ((hmemS x).mp hxS)
      refine ⟨b, hbev, ?_, ?_⟩
      · have hconnAll := groupEntries_conn (events.map toEntry)
          (sortEntries (events.map toEntry)) (fun y hy => (hmemS y).mp hy)
          hwS (sortEntries_sorted _) g hgG (toEntry a) heg x hxg
        rw [hbeq]
        exact hconnAll
      · rw [hLa, hLA]
        have hbid : b.id = x.id := by rw [← hbeq]; rfl
        rw [hbid, hxcol]

/-- C3, witness: the theorem applied to the spec's concrete three-event
input (whose ids are pairwise distinct). -/
theorem overlap_layout_spec_witness :
    (([eventA, eventB, eventC].map TimedEvent.id).Nodup) ∧
    ((∀ a ∈ [eventA, eventB, eventC], ∀ b ∈ [eventA, eventB, eventC],
        a.id ≠ b.id →
        overlaps (toEntry a) (toEntry b) →
        (lookupEntry (computeOverlapLayout [eventA, eventB, eventC]) a.id).column ≠
          (lookupEntry (computeOverlapLayout [eventA, eventB, eventC]) b.id).column) ∧
      (∀ a ∈ [eventA, eventB, eventC],
        (∀ b ∈ [eventA, eventB, eventC],
          connectedIn ([eventA, eventB, eventC].map toEntry) (toEntry a) (toEntry b) →
          (lookupEntry (computeOverlapLayout [eventA, eventB, eventC]) b.id).column <
            (lookupEntry (computeOverlapLayout [eventA, eventB, eventC]) a.id).totalColumns) ∧
        (∃ b ∈ [eventA, eventB, eventC],
          connectedIn ([eventA, eventB, eventC].map toEntry) (toEntry a) (toEntry b) ∧
          (lookupEntry (computeOverlapLayout [eventA, eventB, eventC]) b.id).column + 1 =
            (lookupEntry (computeOverlapLayout [eventA, eventB, eventC]) a.id).totalColumns))) :=
  ⟨by decide, overlap_layout_spec [eventA, eventB, eventC] (by decide)⟩

/-! ## Claim C10: one entry per id, columns inside the cluster width -/

/-- C10.  For every input list of events (with the data model's unique
ids), the layout map has pairwise-distinct keys, its key set is exactly
the set of input event ids, and every stored entry satisfies
`0 ≤ column < totalColumns` (hence `totalColumns ≥ 1`). -/
theorem overlap_layout_entry_bounds (events : List TimedEvent)
    (hnd : (events.map TimedEvent.id).Nodup) :
    ((computeOverlapLayout events).map Prod.fst).Nodup ∧
    (∀ k, k ∈ (computeOverlapLayout events).map Prod.fst ↔
      k ∈ events.map TimedEvent.id) ∧
    (∀ p ∈ computeOverlapLayout events,
      0 ≤ p.2.column ∧ p.2.column < p.2.totalColumns ∧
        1 ≤ p.2.totalColumns) := by
  by_cases hne : events = []
  · subst hne
    exact ⟨by simp [computeOverlapLayout], by simp [computeOverlapLayout],
      by simp [computeOverlapLayout]⟩
  · have hkeys : keysOf (computeOverlapLayout events) =
        keysOf ((assignLoop (sortEntries (events.map toEntry)) [] []).1) := by
      rw [computeOverlapLayout_eq events hne]
      exact keysOf_foldG _ _
    have hidmem : ∀ k, k ∈ entryIds (sortEntries (events.map toEntry)) ↔
        k ∈ events.map TimedEvent.id := by
      intro k
      rw [← entryIds_toEntry]
      exact ((sortEntries_perm (events.map toEntry)).map Entry.id).mem_iff
    have hndkeys : (keysOf (computeOverlapLayout events)).Nodup := by
      rw [hkeys]
      exact assignLoop_keys_nodup _ _ _ (by simp [keysOf])
    refine ⟨hndkeys, ?_, ?_⟩
    · intro k
      show k ∈ keysOf (computeOverlapLayout events) ↔ _
      rw [hkeys, assignLoop_keys]
      simp [keysOf, hidmem k]
    · intro p hp
      have hsome : lookupAssoc (computeOverlapLayout events) p.1 = some p.2 :=
        lookupAssoc_of_mem_nodup _ hndkeys _ _ hp
      have hkmem : p.1 ∈ entryIds (sortEntries (events.map toEntry)) := by
        have hm : p.1 ∈ keysOf (computeOverlapLayout events) :=
          List.mem_map_of_mem Prod.fst hp
        rw [hkeys, assignLoop_keys] at hm
        simpa [keysOf] using hm
      obtain ⟨e, heS, heid⟩ := List.mem_map.mp hkmem
      obtain ⟨g, hgG, heg, hlook⟩ := computeOverlapLayout_lookup events hnd e heS
      rw [← heid] at hsome
      have hp2 : p.2 = ⟨(lookupEntry ((assignLoop (sortEntries
          (events.map toEntry)) [] []).1) e.id).column,
          groupMaxCol ((assignLoop (sortEntries
            (events.map toEntry)) [] []).1) g + 1⟩ :=
        Option.some.inj (hsome.symm.trans hlook)
      have hle : (lookupEntry ((assignLoop (sortEntries
          (events.map toEntry)) [] []).1) e.id).column ≤
          groupMaxCol ((assignLoop (sortEntries
            (events.map toEntry)) [] []).1) g :=
        le_foldl_max _ 0 _ (List.mem_map_of_mem
          (fun e' => (lookupEntry ((assignLoop (sortEntries
            (events.map toEntry)) [] []).1) e'.id).column) heg)
      rw [hp2]
      exact ⟨Nat.zero_le _, Nat.lt_succ_of_le hle, Nat.succ_le_succ (Nat.zero_le _)⟩

/-- C10, witness: the theorem applied to the spec's concrete three-event
input. -/
theorem overlap_layout_entry_bounds_witness :
    (([eventA, eventB, eventC].map TimedEvent.id).Nodup) ∧
    (((computeOverlapLayout [eventA, eventB, eventC]).map Prod.fst).Nodup ∧
      (∀ k, k ∈ (computeOverlapLayout [eventA, eventB, eventC]).map Prod.fst ↔
        k ∈ [eventA, eventB, eventC].map TimedEvent.id) ∧
      (∀ p ∈ computeOverlapLayout [eventA, eventB, eventC],
        0 ≤ p.2.column ∧ p.2.column < p.2.totalColumns ∧
          1 ≤ p.2.totalColumns)) :=
  ⟨by decide, overlap_layout_entry_bounds [eventA, eventB, eventC] (by decide)⟩

end ForceCalendar
